import Mathlib

/-!
Verification development for the ovk-poc repository: a multi-device
authenticator in which devices share a seed by an interactive DH ceremony,
derive per-service Ownership Verification Keys (OVKs), and rotate the seed
through a quorum / timeout migration state machine on the service side.

The definitions below are shallow embeddings of the source:
* `publish/client.js` : `CredManager` (quorum and timeout migration),
  `Service.register` / `Service.authn` / `Service.update`, `Device.authn`;
* `src/seed.ts` : `SeedImpl` (negotiate, deriveOVK, macOVK, verifyOVK,
  signOVK, update, completeUpdation).

JavaScript objects are modelled with association lists, JavaScript numbers
with `Int` (times) and `Nat` (indices), and the platform crypto primitives
(HKDF, HMAC, ECDSA, the P-256 group action) are abstract parameters, as the
specification treats them as external collaborators.
-/

namespace OVK

/-- EC public JWK as used by the repository: `kty` is always the literal
string EC and is not inspected by `equalECPubJWK`, so it is not a field.
`kid` is optional in the source type. -/
structure ECPubJWK where
  kid : Option String
  crv : String
  x : String
  y : String
deriving DecidableEq

/-- Embeds `equalECPubJWK` from `key.ts` / `client.js`: both arguments may be
undefined; two present JWKs are compared pointwise on kid, crv, x, y. -/
def equalECPubJWK : Option ECPubJWK → Option ECPubJWK → Bool
  | none, none => true
  | some l, some r => l.kid == r.kid && l.crv == r.crv && l.x == r.x && l.y == r.y
  | _, _ => false

theorem equalECPubJWK_some_iff (l r : ECPubJWK) :
    equalECPubJWK (some l) (some r) = true ↔ l = r := by
  cases l; cases r
  simp [equalECPubJWK]
  tauto

theorem equalECPubJWK_refl (l : ECPubJWK) :
    equalECPubJWK (some l) (some l) = true :=
  (equalECPubJWK_some_iff l l).mpr rfl

/-! ## CredManager (from `publish/client.js`)

Per-user server state: the credential list with the OVK each credential is
bound to, the currently trusted OVK material, and the optional set of
migration candidates. Times are `Int` milliseconds (`Date.now()`). -/

/-- The record `(ovk_jwk, r_b64u, mac_b64u)` kept per user. -/
structure OVKM where
  ovk_jwk : ECPubJWK
  r_b64u : String
  mac_b64u : String
deriving DecidableEq

/-- A migration candidate: an OVKM plus the time it was first seen. -/
structure Candidate where
  ovk_jwk : ECPubJWK
  r_b64u : String
  mac_b64u : String
  firstTime : Int
deriving DecidableEq

/-- The `next` record of a migrating CredManager. -/
structure NextRec where
  candidates : List Candidate
  startTime : Int
deriving DecidableEq

/-- One stored credential together with the OVK it is bound to. -/
structure CredEntry where
  jwk : ECPubJWK
  ovk : ECPubJWK
deriving DecidableEq

/-- Per-user server state of `CredManager`. -/
structure CredManager where
  creds : List CredEntry
  ovkm : OVKM
  next : Option NextRec
deriving DecidableEq

/-- Three minutes, the migration window (`migrating_date_ms`). -/
def migrating_date_ms : Int := 3 * 60 * 1000

/-- `CredManager.init`. -/
def CredManager.init (cred_jwk : ECPubJWK) (ovkm : OVKM) : CredManager :=
  ⟨[⟨cred_jwk, ovkm.ovk_jwk⟩], ovkm, none⟩

/-- `CredManager.getOVK`. -/
def CredManager.getOVK (cm : CredManager) : ECPubJWK := cm.ovkm.ovk_jwk

/-- `CredManager.isCred`. -/
def CredManager.isCred (cm : CredManager) (cred_jwk : ECPubJWK) : Bool :=
  cm.creds.any fun c => equalECPubJWK (some c.jwk) (some cred_jwk)

/-- `CredManager.add`: push the credential bound to the current OVK. -/
def CredManager.add (cm : CredManager) (cred_jwk : ECPubJWK) : Bool × CredManager :=
  (true, { cm with creds := cm.creds ++ [⟨cred_jwk, cm.getOVK⟩] })

/-- Rebind the first credential whose jwk equals `cred_jwk` to `ovk_jwk`
(the `this.creds[idx].ovk = ovk_jwk` assignment). -/
def rebindFirst (creds : List CredEntry) (cred_jwk ovk_jwk : ECPubJWK) : List CredEntry :=
  match creds with
  | [] => []
  | c :: rest =>
    if equalECPubJWK (some c.jwk) (some cred_jwk) then ⟨c.jwk, ovk_jwk⟩ :: rest
    else c :: rebindFirst rest cred_jwk ovk_jwk

/-- Number of credentials bound to `ovk_jwk`
(`this.creds.filter((c) => equalECPubJWK(c.ovk, ovk_jwk)).length`). -/
def countBound (creds : List CredEntry) (ovk_jwk : ECPubJWK) : Nat :=
  (creds.filter fun c => equalECPubJWK (some c.ovk) (some ovk_jwk)).length

/-- The `if (!this.next) this.next = ... ` step: the next-record the call
works on, created with start time `now` when absent. -/
def baseNext (next : Option NextRec) (now : Int) : NextRec :=
  match next with
  | none => ⟨[], now⟩
  | some nx => nx

/-- The candidate-append step: push the new OVKM unless an equal public JWK
is already a candidate. -/
def recordCandidate (nx : NextRec) (ovk_jwk : ECPubJWK) (r_b64u mac_b64u : String)
    (now : Int) : NextRec :=
  if !(nx.candidates.any fun c => equalECPubJWK (some c.ovk_jwk) (some ovk_jwk)) then
    { nx with candidates := nx.candidates ++ [⟨ovk_jwk, r_b64u, mac_b64u, now⟩] }
  else nx

/-- `CredManager.addUpdating(cred_jwk, ovk_jwk, r_b64u, mac_b64u)` with the
current time passed explicitly in place of `Date.now()`. -/
def CredManager.addUpdating (cm : CredManager) (now : Int) (cred_jwk ovk_jwk : ECPubJWK)
    (r_b64u mac_b64u : String) : Bool × CredManager :=
  if !(cm.creds.any fun c => equalECPubJWK (some c.jwk) (some cred_jwk)) then
    (false, cm)
  else
    let creds1 := rebindFirst cm.creds cred_jwk ovk_jwk
    let nx := recordCandidate (baseNext cm.next now) ovk_jwk r_b64u mac_b64u now
    let cred_num := creds1.length
    let next_ovk_num := countBound creds1 ovk_jwk
    if (cred_num : ℚ) / 2 < (next_ovk_num : ℚ) then
      (true, { creds := creds1.filter fun c => equalECPubJWK (some c.ovk) (some ovk_jwk),
               ovkm := ⟨ovk_jwk, r_b64u, mac_b64u⟩,
               next := none })
    else
      (true, { creds := creds1, ovkm := cm.ovkm, next := some nx })

/-! ### The timeout-resolution loop of `CredManager.isUpdating`

The source folds over `this.creds`, and for each credential runs
`for (let count = 0; count < ovks.length; count++)` over an array of levels
that the loop body itself extends: a match of `c.ovk` at level `count`
pushes `c.ovk` onto level `count + 1`, creating that level when it does not
exist. Because the loop bound `ovks.length` is re-read on every iteration,
the embedding gives the loop explicit fuel and returns `none` when the fuel
runs out at every fuel value, which is how non-termination is expressed. -/

/-- Matches of `c` at one level: one push to the next level per match. -/
def countMatches (c : ECPubJWK) (lvl : List ECPubJWK) : Nat :=
  (lvl.filter fun x => equalECPubJWK (some c) (some x)).length

/-- Append `app` to level `i` of `ovks`; the caller only uses `i ≤ length`,
and `i = length` creates the level (the `else` branch of the source). -/
def pushLevel (ovks : List (List ECPubJWK)) (i : Nat) (app : List ECPubJWK) :
    List (List ECPubJWK) :=
  match ovks, i with
  | [], _ => [app]
  | lvl :: rest, 0 => (lvl ++ app) :: rest
  | lvl :: rest, i + 1 => lvl :: pushLevel rest i app

/-- The `for (let count = 0; count < ovks.length; count++)` loop for one
credential `c`, with fuel. -/
def countLoop (c : ECPubJWK) : Nat → Nat → List (List ECPubJWK) →
    Option (List (List ECPubJWK))
  | 0, _, _ => none
  | fuel + 1, count, ovks =>
    if h : count < ovks.length then
      let k := countMatches c (ovks.get ⟨count, h⟩)
      let ovks1 := if k = 0 then ovks else pushLevel ovks (count + 1) (List.replicate k c)
      countLoop c fuel (count + 1) ovks1
    else
      some ovks

/-- The `this.creds.reduce(..., [[]])` fold: run the count loop for each
credential, then push `c.ovk` onto level `0`. -/
def buildOvks (fuel : Nat) : List CredEntry → List (List ECPubJWK) →
    Option (List (List ECPubJWK))
  | [], ovks => some ovks
  | c :: rest, ovks =>
    match countLoop c.ovk fuel 0 ovks with
    | none => none
    | some ovks1 => buildOvks fuel rest (pushLevel ovks1 0 [c.ovk])

/-- One step of the tie-break loop. JavaScript truthiness is embedded
exactly: `!registered` holds when `registered` is `undefined` or `0`, and
`r && r < registered` requires `r` to be defined and nonzero. -/
def tieStep (cands : List Candidate) (st : Option Int × Option ECPubJWK)
    (candidate : ECPubJWK) : Option Int × Option ECPubJWK :=
  let r := (cands.find? fun c =>
    equalECPubJWK (some candidate) (some c.ovk_jwk)).map Candidate.firstTime
  match st.1 with
  | none => (r, some candidate)
  | some reg =>
    if reg = 0 then (r, some candidate)
    else
      match r with
      | some rv => if rv ≠ 0 ∧ rv < reg then (r, some candidate) else st
      | none => st

/-- The tie-break loop over the top level (`for (const candidate of
ovks[ovks.length - 1])`). -/
def tieBreak (cands : List Candidate) (top : List ECPubJWK) : Option ECPubJWK :=
  (top.foldl (tieStep cands) (none, none)).2

/-- `CredManager.isUpdating()` with explicit `now` and fuel for the
counting loop. `none` means the counting loop did not terminate within the
fuel. -/
def CredManager.isUpdatingF (cm : CredManager) (fuel : Nat) (now : Int) :
    Option (Bool × CredManager) :=
  match cm.next with
  | none => some (false, cm)
  | some nx =>
    if now - nx.startTime ≤ migrating_date_ms then some (true, cm)
    else
      match buildOvks fuel cm.creds [[]] with
      | none => none
      | some ovks =>
        let top := ovks.getLastD []
        let chosen : Option ECPubJWK :=
          if top.length = 1 then top.head?
          else tieBreak nx.candidates top
        let ovkm1 :=
          match nx.candidates.find? fun c => equalECPubJWK (some c.ovk_jwk) chosen with
          | some cand => (⟨cand.ovk_jwk, cand.r_b64u, cand.mac_b64u⟩ : OVKM)
          | none => cm.ovkm
        some (false,
          { creds := cm.creds.filter fun c => equalECPubJWK (some c.ovk) chosen,
            ovkm := ovkm1,
            next := none })

/-! ### Lemmas about the counting loop -/

theorem countMatches_ne_zero {c : ECPubJWK} {lvl : List ECPubJWK} (h : c ∈ lvl) :
    countMatches c lvl ≠ 0 := by
  unfold countMatches
  intro hlen
  rw [List.length_eq_zero] at hlen
  have : c ∈ List.filter (fun x => equalECPubJWK (some c) (some x)) lvl :=
    List.mem_filter.mpr ⟨h, equalECPubJWK_refl c⟩
  rw [hlen] at this
  exact absurd this (List.not_mem_nil c)

theorem pushLevel_length_ge {ovks : List (List ECPubJWK)} {i : Nat}
    (app : List ECPubJWK) (h : i ≤ ovks.length) :
    i + 1 ≤ (pushLevel ovks i app).length := by
  induction ovks generalizing i with
  | nil =>
    have hz : i = 0 := Nat.le_zero.mp h
    subst hz
    simp [pushLevel]
  | cons lvl rest ih =>
    cases i with
    | zero => simp [pushLevel]
    | succ i =>
      have hi : i ≤ rest.length := Nat.le_of_succ_le_succ h
      simpa [pushLevel] using ih hi

theorem mem_pushLevel_get {ovks : List (List ECPubJWK)} {i : Nat}
    {app : List ECPubJWK} {x : ECPubJWK} (h : i ≤ ovks.length) (hx : x ∈ app)
    (h' : i < (pushLevel ovks i app).length) :
    x ∈ (pushLevel ovks i app).get ⟨i, h'⟩ := by
  induction ovks generalizing i with
  | nil =>
    have hz : i = 0 := Nat.le_zero.mp h
    subst hz
    simpa [pushLevel] using hx
  | cons lvl rest ih =>
    cases i with
    | zero => simp [pushLevel, hx]
    | succ i =>
      have hi : i ≤ rest.length := Nat.le_of_succ_le_succ h
      simpa [pushLevel] using ih hi (by simpa [pushLevel] using h')

theorem countLoop_done {c : ECPubJWK} {fuel count : Nat} {ovks : List (List ECPubJWK)}
    (h : ¬ count < ovks.length) : countLoop c (fuel + 1) count ovks = some ovks := by
  unfold countLoop
  rw [dif_neg h]

theorem countLoop_step_nomatch {c : ECPubJWK} {fuel count : Nat}
    {ovks : List (List ECPubJWK)} (h : count < ovks.length)
    (hk : countMatches c (ovks.get ⟨count, h⟩) = 0) :
    countLoop c (fuel + 1) count ovks = countLoop c fuel (count + 1) ovks := by
  conv_lhs => unfold countLoop
  rw [dif_pos h]
  have hk2 : countMatches c ovks[count] = 0 := hk
  simp [hk2]

/-- Once the credential being counted already occurs at the current level,
every further iteration creates a fresh higher level containing it again, so
the loop never reaches the bound: it returns `none` at every fuel. -/
theorem countLoop_none_of_mem {c : ECPubJWK} :
    ∀ (fuel count : Nat) (ovks : List (List ECPubJWK)) (h : count < ovks.length),
      c ∈ ovks.get ⟨count, h⟩ → countLoop c fuel count ovks = none := by
  intro fuel
  induction fuel with
  | zero => intro count ovks h hmem; rfl
  | succ fuel ih =>
    intro count ovks h hmem
    have hk : countMatches c (ovks.get ⟨count, h⟩) ≠ 0 := countMatches_ne_zero hmem
    unfold countLoop
    rw [dif_pos h]
    simp only [if_neg hk]
    have hle : count + 1 ≤ ovks.length := h
    have h1 : count + 1 < (pushLevel ovks (count + 1)
        (List.replicate (countMatches c (ovks.get ⟨count, h⟩)) c)).length :=
      pushLevel_length_ge _ hle
    refine ih (count + 1) _ h1 ?_
    refine mem_pushLevel_get hle ?_ h1
    exact List.mem_replicate.mpr ⟨hk, rfl⟩

/-! ### Concrete JWKs used in witnesses and counterexamples -/

/-- A sample OVK public JWK. -/
def jwkO : ECPubJWK := ⟨none, "P-256", "xO", "yO"⟩

/-- A second, distinct OVK public JWK (a migration candidate). -/
def jwkX : ECPubJWK := ⟨none, "P-256", "xX", "yX"⟩

/-- A third OVK public JWK. -/
def jwkY : ECPubJWK := ⟨none, "P-256", "xY", "yY"⟩

/-- Sample credential JWKs. -/
def jwkA : ECPubJWK := ⟨none, "P-256", "xA", "yA"⟩

def jwkB : ECPubJWK := ⟨none, "P-256", "xB", "yB"⟩

/-- A CredManager whose migration window has expired with two credentials
bound to the same candidate OVK `jwkX`: the state on which the timeout
resolution is claimed to adopt `jwkX`. -/
def cmTwoBound : CredManager :=
  { creds := [⟨jwkA, jwkX⟩, ⟨jwkB, jwkX⟩],
    ovkm := ⟨jwkO, "r0", "m0"⟩,
    next := some ⟨[⟨jwkX, "rX", "mX", 5⟩], 0⟩ }

/-- C2: the timeout resolution of `CredManager.isUpdating` does not
terminate on a state where two credentials are bound to the same candidate
OVK: at every fuel value the counting loop fails to finish, so the call
never returns, contradicting the claimed resolution (adopt the OVK bound to
the maximum number of credentials). -/
theorem isUpdating_timeout_resolution_diverges :
    ∀ fuel : Nat, cmTwoBound.isUpdatingF fuel 180001 = none := by
  intro fuel
  have hwin : ¬((180001 : Int) - (0 : Int) ≤ migrating_date_ms) := by decide
  unfold CredManager.isUpdatingF cmTwoBound
  simp only [migrating_date_ms] at hwin ⊢
  rw [if_neg (by exact_mod_cast hwin)]
  have hbuild : buildOvks fuel [⟨jwkA, jwkX⟩, ⟨jwkB, jwkX⟩] [[]] = none := by
    match fuel with
    | 0 => rfl
    | 1 => rfl
    | (n + 2) =>
      have h1 : countLoop jwkX (n + 2) 0 [[]] = some [[]] := by
        rw [@countLoop_step_nomatch jwkX (n + 1) 0 [[]] (by simp) (by rfl)]
        exact countLoop_done (by simp)
      have h2 : countLoop jwkX (n + 2) 0 [[jwkX]] = none := by
        refine countLoop_none_of_mem (n + 2) 0 [[jwkX]] (by simp) ?_
        simp [List.get]
      unfold buildOvks
      rw [h1]
      unfold buildOvks
      simp only [pushLevel, List.nil_append]
      rw [h2]
  rw [hbuild]

/-! ### Lemmas about `rebindFirst` -/

theorem rebindFirst_decomp {creds : List CredEntry} {cred ovk : ECPubJWK}
    (h : creds.any (fun c => equalECPubJWK (some c.jwk) (some cred)) = true) :
    ∃ pre c post, creds = pre ++ c :: post
      ∧ (∀ c' ∈ pre, equalECPubJWK (some c'.jwk) (some cred) = false)
      ∧ equalECPubJWK (some c.jwk) (some cred) = true
      ∧ rebindFirst creds cred ovk = pre ++ ⟨c.jwk, ovk⟩ :: post := by
  induction creds with
  | nil => simp at h
  | cons c rest ih =>
    by_cases hc : equalECPubJWK (some c.jwk) (some cred) = true
    · exact ⟨[], c, rest, rfl, by simp, hc, by simp [rebindFirst, hc]⟩
    · have hrest : rest.any (fun c => equalECPubJWK (some c.jwk) (some cred)) = true := by
        rcases List.any_eq_true.mp h with ⟨x, hx, hpx⟩
        rcases List.mem_cons.mp hx with hx0 | hx1
        · exact absurd (hx0 ▸ hpx) hc
        · exact List.any_eq_true.mpr ⟨x, hx1, hpx⟩
      rcases ih hrest with ⟨pre, cmid, post, hsplit, hpre, hmid, hreb⟩
      refine ⟨c :: pre, cmid, post, by simp [hsplit], ?_, hmid, ?_⟩
      · intro c' hc'
        rcases List.mem_cons.mp hc' with h0 | h1
        · subst h0; exact Bool.not_eq_true _ ▸ (by simpa using hc)
        · exact hpre c' h1
      · simp [rebindFirst, hc, hreb]

theorem rebindFirst_map_jwk (creds : List CredEntry) (cred ovk : ECPubJWK) :
    (rebindFirst creds cred ovk).map CredEntry.jwk = creds.map CredEntry.jwk := by
  induction creds with
  | nil => rfl
  | cons c rest ih =>
    by_cases hc : equalECPubJWK (some c.jwk) (some cred) = true
    · simp [rebindFirst, hc]
    · simp [rebindFirst, hc, ih]

/-! ### C1: the specification of `addUpdating` on a registered credential -/

/-- The postcondition of `CredManager.addUpdating` claimed by the spec:
the call returns true; the first credential equal to `cred` is rebound to
the new OVK; the call commits exactly when the credentials bound to the new
OVK strictly exceed half of the credential list; on commit the trusted OVKM
becomes the argument triple, `next` is dropped and exactly the credentials
bound to the new OVK survive; otherwise the OVKM and the credential
membership are untouched and the new OVK is recorded as a candidate
(creating `next` when absent, skipping the append when an equal public JWK
is already there). -/
def AddUpdatingPost (cm : CredManager) (now : Int) (cred ovk' : ECPubJWK)
    (r' mac' : String) : Prop :=
  let creds1 := rebindFirst cm.creds cred ovk'
  let oldCands := (cm.next.map NextRec.candidates).getD []
  let start := (cm.next.map NextRec.startTime).getD now
  let cands1 := if oldCands.any (fun c => equalECPubJWK (some c.ovk_jwk) (some ovk'))
                then oldCands else oldCands ++ [⟨ovk', r', mac', now⟩]
  let res := cm.addUpdating now cred ovk' r' mac'
  res.1 = true
  ∧ (∃ pre c post, cm.creds = pre ++ c :: post
       ∧ (∀ c' ∈ pre, equalECPubJWK (some c'.jwk) (some cred) = false)
       ∧ equalECPubJWK (some c.jwk) (some cred) = true
       ∧ creds1 = pre ++ ⟨c.jwk, ovk'⟩ :: post)
  ∧ (((creds1.length : ℚ) / 2 < (countBound creds1 ovk' : ℚ)) →
       res.2 = ⟨creds1.filter fun c => equalECPubJWK (some c.ovk) (some ovk'),
                ⟨ovk', r', mac'⟩, none⟩)
  ∧ (¬ ((creds1.length : ℚ) / 2 < (countBound creds1 ovk' : ℚ)) →
       res.2 = ⟨creds1, cm.ovkm, some ⟨cands1, start⟩⟩
       ∧ res.2.creds.map CredEntry.jwk = cm.creds.map CredEntry.jwk)

/-- C1: on a credential present in the list, `addUpdating` rebinds it,
records the new OVK as candidate, commits exactly on strict majority, and
returns true. -/
theorem addUpdating_meets_spec (cm : CredManager) (now : Int)
    (cred ovk' : ECPubJWK) (r' mac' : String) (h : cm.isCred cred = true) :
    AddUpdatingPost cm now cred ovk' r' mac' := by
  have hany : cm.creds.any (fun c => equalECPubJWK (some c.jwk) (some cred)) = true := h
  unfold AddUpdatingPost
  rcases @rebindFirst_decomp _ _ ovk' hany with ⟨pre, cmid, post, hsplit, hpre, hmid, hreb⟩
  refine ⟨?_, ⟨pre, cmid, post, hsplit, hpre, hmid, hreb⟩, ?_, ?_⟩
  · unfold CredManager.addUpdating
    rw [hany]
    simp only [Bool.not_true, Bool.false_eq_true, if_false]
    by_cases hq : ((rebindFirst cm.creds cred ovk').length : ℚ) / 2
        < (countBound (rebindFirst cm.creds cred ovk') ovk' : ℚ)
    · simp [hq]
    · simp [hq]
  · intro hq
    unfold CredManager.addUpdating
    rw [hany]
    simp only [Bool.not_true, Bool.false_eq_true, if_false]
    simp [hq]
  · intro hq
    constructor
    · unfold CredManager.addUpdating
      rw [hany]
      simp only [Bool.not_true, Bool.false_eq_true, if_false]
      rcases hnx : cm.next with _ | nx
      · simp [hq, hnx, baseNext, recordCandidate]
      · by_cases hpresent :
            nx.candidates.any (fun c => equalECPubJWK (some c.ovk_jwk) (some ovk')) = true
        · simp [hq, hpresent, baseNext, recordCandidate]
        · simp [hq, hpresent, baseNext, recordCandidate]
    · unfold CredManager.addUpdating
      rw [hany]
      simp only [Bool.not_true, Bool.false_eq_true, if_false]
      simp [hq, rebindFirst_map_jwk]

/-- Witness for C1 at a concrete CredManager. -/
theorem addUpdating_meets_spec_witness :
    ((CredManager.init jwkA ⟨jwkO, "r0", "m0"⟩).isCred jwkA = true)
    ∧ AddUpdatingPost (CredManager.init jwkA ⟨jwkO, "r0", "m0"⟩) 7 jwkA jwkX "rX" "mX" :=
  ⟨by decide, addUpdating_meets_spec (CredManager.init jwkA ⟨jwkO, "r0", "m0"⟩)
    7 jwkA jwkX "rX" "mX" (by decide)⟩

/-! ### C9: a single update message and the quorum threshold -/

/-- Strict majority over the rationals matches doubling over the naturals. -/
theorem half_lt_iff (t n : Nat) : ((t : ℚ) / 2 < (n : ℚ)) ↔ t < 2 * n := by
  rw [div_lt_iff₀ (by norm_num : (0 : ℚ) < 2)]
  constructor
  · intro hlt
    exact_mod_cast (by linarith : (t : ℚ) < 2 * n)
  · intro hlt
    have : (t : ℚ) < 2 * n := by exact_mod_cast hlt
    linarith

/-- Counterexample to C9 as stated: with a single stored credential and no
pending `next`, one `addUpdating` call is already a strict majority, so it
commits and replaces the trusted OVKM. -/
theorem addUpdating_single_cred_commits :
    (CredManager.addUpdating ⟨[⟨jwkA, jwkO⟩], ⟨jwkO, "r0", "m0"⟩, none⟩ 7
        jwkA jwkX "rX" "mX").2.ovkm ≠
      (⟨[⟨jwkA, jwkO⟩], ⟨jwkO, "r0", "m0"⟩, none⟩ : CredManager).ovkm := by
  unfold CredManager.addUpdating
  norm_num [rebindFirst, countBound, equalECPubJWK, jwkA, jwkO, jwkX]
  decide

/-- C9 (amended): with no pending `next`, at least two stored credentials,
every credential bound to the current trusted OVK and a new OVK distinct
from it, one `addUpdating` call leaves the trusted OVKM unchanged and
prunes no credential. -/
theorem addUpdating_single_message_no_commit (cm : CredManager) (now : Int)
    (cred ovk' : ECPubJWK) (r' mac' : String)
    (h1 : cm.next = none)
    (h2 : ∀ c ∈ cm.creds, c.ovk = cm.ovkm.ovk_jwk)
    (h3 : ovk' ≠ cm.ovkm.ovk_jwk)
    (h4 : 2 ≤ cm.creds.length) :
    (cm.addUpdating now cred ovk' r' mac').2.ovkm = cm.ovkm
    ∧ (cm.addUpdating now cred ovk' r' mac').2.creds.map CredEntry.jwk
        = cm.creds.map CredEntry.jwk := by
  by_cases hany : cm.creds.any (fun c => equalECPubJWK (some c.jwk) (some cred)) = true
  · rcases @rebindFirst_decomp _ _ ovk' hany with ⟨pre, cmid, post, hsplit, hpre, hmid, hreb⟩
    have hovk : ∀ c ∈ cm.creds, equalECPubJWK (some c.ovk) (some ovk') = false := by
      intro c hc
      have hco : c.ovk = cm.ovkm.ovk_jwk := h2 c hc
      by_cases hb : equalECPubJWK (some c.ovk) (some ovk') = true
      · exact absurd ((equalECPubJWK_some_iff _ _).mp hb)
          (by rw [hco]; exact fun e => h3 e.symm)
      · exact Bool.eq_false_iff.mpr hb
    have hcnt : countBound (rebindFirst cm.creds cred ovk') ovk' = 1 := by
      rw [hreb]
      unfold countBound
      rw [List.filter_append, List.filter_cons]
      have hprefilter :
          pre.filter (fun c => equalECPubJWK (some c.ovk) (some ovk')) = [] := by
        rw [List.filter_eq_nil_iff]
        intro c hc
        have : c ∈ cm.creds := by rw [hsplit]; exact List.mem_append_left _ hc
        simp [hovk c this]
      have hpostfilter :
          post.filter (fun c => equalECPubJWK (some c.ovk) (some ovk')) = [] := by
        rw [List.filter_eq_nil_iff]
        intro c hc
        have : c ∈ cm.creds := by
          rw [hsplit]; exact List.mem_append_right _ (List.mem_cons_of_mem _ hc)
        simp [hovk c this]
      simp [hprefilter, hpostfilter, equalECPubJWK_refl]
    have hlen : (rebindFirst cm.creds cred ovk').length = cm.creds.length := by
      have := rebindFirst_map_jwk cm.creds cred ovk'
      calc (rebindFirst cm.creds cred ovk').length
          = ((rebindFirst cm.creds cred ovk').map CredEntry.jwk).length := by
            rw [List.length_map]
        _ = (cm.creds.map CredEntry.jwk).length := by rw [this]
        _ = cm.creds.length := by rw [List.length_map]
    have hq : ¬ (((rebindFirst cm.creds cred ovk').length : ℚ) / 2
        < (countBound (rebindFirst cm.creds cred ovk') ovk' : ℚ)) := by
      rw [half_lt_iff, hcnt, hlen]
      omega
    constructor
    · unfold CredManager.addUpdating
      rw [hany]
      simp only [Bool.not_true, Bool.false_eq_true, if_false]
      simp [hq]
    · unfold CredManager.addUpdating
      rw [hany]
      simp only [Bool.not_true, Bool.false_eq_true, if_false]
      simp [hq, rebindFirst_map_jwk]
  · have hfalse : cm.creds.any (fun c => equalECPubJWK (some c.jwk) (some cred)) = false :=
      Bool.eq_false_iff.mpr hany
    unfold CredManager.addUpdating
    rw [hfalse]
    simp

/-- Witness for the amended C9 at a concrete two-credential manager. -/
theorem addUpdating_single_message_no_commit_witness :
    ((⟨[⟨jwkA, jwkO⟩, ⟨jwkB, jwkO⟩], ⟨jwkO, "r0", "m0"⟩, none⟩ : CredManager).next = none
      ∧ (∀ c ∈ (⟨[⟨jwkA, jwkO⟩, ⟨jwkB, jwkO⟩], ⟨jwkO, "r0", "m0"⟩, none⟩ : CredManager).creds,
          c.ovk = (⟨[⟨jwkA, jwkO⟩, ⟨jwkB, jwkO⟩], ⟨jwkO, "r0", "m0"⟩,
            none⟩ : CredManager).ovkm.ovk_jwk)
      ∧ jwkX ≠ (⟨[⟨jwkA, jwkO⟩, ⟨jwkB, jwkO⟩], ⟨jwkO, "r0", "m0"⟩,
          none⟩ : CredManager).ovkm.ovk_jwk
      ∧ 2 ≤ (⟨[⟨jwkA, jwkO⟩, ⟨jwkB, jwkO⟩], ⟨jwkO, "r0", "m0"⟩,
          none⟩ : CredManager).creds.length)
    ∧ ((CredManager.addUpdating ⟨[⟨jwkA, jwkO⟩, ⟨jwkB, jwkO⟩], ⟨jwkO, "r0", "m0"⟩, none⟩ 7
          jwkA jwkX "rX" "mX").2.ovkm
        = (⟨[⟨jwkA, jwkO⟩, ⟨jwkB, jwkO⟩], ⟨jwkO, "r0", "m0"⟩, none⟩ : CredManager).ovkm
      ∧ (CredManager.addUpdating ⟨[⟨jwkA, jwkO⟩, ⟨jwkB, jwkO⟩], ⟨jwkO, "r0", "m0"⟩, none⟩ 7
          jwkA jwkX "rX" "mX").2.creds.map CredEntry.jwk
        = (⟨[⟨jwkA, jwkO⟩, ⟨jwkB, jwkO⟩], ⟨jwkO, "r0", "m0"⟩,
            none⟩ : CredManager).creds.map CredEntry.jwk) :=
  ⟨⟨rfl, by decide, by decide, by decide⟩,
    addUpdating_single_message_no_commit
      ⟨[⟨jwkA, jwkO⟩, ⟨jwkB, jwkO⟩], ⟨jwkO, "r0", "m0"⟩, none⟩ 7 jwkA jwkX "rX" "mX"
      rfl (by decide) (by decide) (by decide)⟩

/-! ### C7: the binding invariant over all reachable CredManager states -/

/-- The `getCreds` view: credential JWKs plus the OVKM, with the candidate
list exposed while updating. -/
structure CredsView where
  creds : List ECPubJWK
  ovk_jwk : ECPubJWK
  r_b64u : String
  mac_b64u : String
  next : Option (List Candidate)
deriving DecidableEq

/-- `CredManager.getCreds()`: first runs `isUpdating()` (which may resolve a
timeout and mutate the state), then reads the state. -/
def CredManager.getCredsF (cm : CredManager) (fuel : Nat) (now : Int) :
    Option (CredsView × CredManager) :=
  match cm.isUpdatingF fuel now with
  | none => none
  | some (b, cm') =>
    if b then
      some (⟨cm'.creds.map CredEntry.jwk, cm'.ovkm.ovk_jwk, cm'.ovkm.r_b64u,
             cm'.ovkm.mac_b64u, cm'.next.map NextRec.candidates⟩, cm')
    else
      some (⟨cm'.creds.map CredEntry.jwk, cm'.ovkm.ovk_jwk, cm'.ovkm.r_b64u,
             cm'.ovkm.mac_b64u, none⟩, cm')

/-- States reachable by sequences of completed CredManager operations. -/
inductive Reach : CredManager → Prop
  | init (cred_jwk : ECPubJWK) (ovkm : OVKM) : Reach (CredManager.init cred_jwk ovkm)
  | add (cm : CredManager) (cred_jwk : ECPubJWK) :
      Reach cm → Reach (cm.add cred_jwk).2
  | addUpd (cm : CredManager) (now : Int) (cred ovk' : ECPubJWK) (r' mac' : String) :
      Reach cm → Reach (cm.addUpdating now cred ovk' r' mac').2
  | isUpd (cm : CredManager) (fuel : Nat) (now : Int) (b : Bool) (cm' : CredManager) :
      Reach cm → cm.isUpdatingF fuel now = some (b, cm') → Reach cm'
  | getCreds (cm : CredManager) (fuel : Nat) (now : Int) (v : CredsView)
      (cm' : CredManager) :
      Reach cm → cm.getCredsF fuel now = some (v, cm') → Reach cm'

/-- The claimed invariant: every stored credential binds either to the
trusted OVK or to a candidate, and with `next` absent, to the trusted OVK. -/
def BindsInv (cm : CredManager) : Prop :=
  (∀ c ∈ cm.creds, c.ovk = cm.ovkm.ovk_jwk
    ∨ ∃ cand ∈ (cm.next.map NextRec.candidates).getD [], c.ovk = cand.ovk_jwk)
  ∧ (cm.next = none → ∀ c ∈ cm.creds, c.ovk = cm.ovkm.ovk_jwk)

theorem mem_rebindFirst {x : CredEntry} {creds : List CredEntry} {cred ovk : ECPubJWK}
    (h : x ∈ rebindFirst creds cred ovk) : x ∈ creds ∨ x.ovk = ovk := by
  induction creds with
  | nil => simp [rebindFirst] at h
  | cons c rest ih =>
    by_cases hc : equalECPubJWK (some c.jwk) (some cred) = true
    · rw [rebindFirst, if_pos hc] at h
      rcases List.mem_cons.mp h with h0 | h1
      · right; rw [h0]
      · left; exact List.mem_cons_of_mem _ h1
    · rw [rebindFirst, if_neg hc] at h
      rcases List.mem_cons.mp h with h0 | h1
      · left; rw [h0]; exact List.mem_cons_self _ _
      · rcases ih h1 with h2 | h2
        · left; exact List.mem_cons_of_mem _ h2
        · right; exact h2

/-- The resolved state after a timeout: every surviving credential binds to
the new trusted OVK (with the invariant available for the pre-state). -/
theorem isUpdatingF_post {cm : CredManager} {fuel : Nat} {now : Int} {b : Bool}
    {cm' : CredManager} (hinv : BindsInv cm)
    (h : cm.isUpdatingF fuel now = some (b, cm')) : BindsInv cm' := by
  unfold CredManager.isUpdatingF at h
  rcases hnx : cm.next with _ | nx
  · rw [hnx] at h
    simp only [Option.some.injEq, Prod.mk.injEq] at h
    rw [← h.2]
    exact hinv
  · rw [hnx] at h
    dsimp only at h
    by_cases hwin : now - nx.startTime ≤ migrating_date_ms
    · rw [if_pos hwin] at h
      simp only [Option.some.injEq, Prod.mk.injEq] at h
      rw [← h.2]
      exact hinv
    · rw [if_neg hwin] at h
      rcases hbuild : buildOvks fuel cm.creds [[]] with _ | ovks
      · rw [hbuild] at h
        simp at h
      · rw [hbuild] at h
        simp only [Option.some.injEq, Prod.mk.injEq] at h
        rcases h with ⟨_, hcm2⟩
        rw [← hcm2]
        set top := ovks.getLastD [] with htop
        set chosen : Option ECPubJWK :=
          if top.length = 1 then top.head? else tieBreak nx.candidates top with hchosen
        clear hchosen htop
        rcases hf : nx.candidates.find? fun c => equalECPubJWK (some c.ovk_jwk) chosen
          with _ | cand
        · rw [hf]
          have hkey : ∀ c ∈ cm.creds,
              equalECPubJWK (some c.ovk) chosen = true → c.ovk = cm.ovkm.ovk_jwk := by
            intro c hc hceq
            rcases hch : chosen with _ | o
            · rw [hch] at hceq
              simp [equalECPubJWK] at hceq
            · rw [hch] at hceq
              have hco : c.ovk = o := (equalECPubJWK_some_iff _ _).mp hceq
              rcases hinv.1 c hc with hok | ⟨cand2, hcand2, hcoeq⟩
              · exact hok
              · exfalso
                have hcand2m : cand2 ∈ nx.candidates := by
                  rw [hnx] at hcand2
                  simpa using hcand2
                have hn := List.find?_eq_none.mp hf cand2 hcand2m
                apply hn
                rw [hch]
                have he : cand2.ovk_jwk = o := by rw [← hcoeq, hco]
                rw [he]
                exact equalECPubJWK_refl o
          refine ⟨?_, ?_⟩
          · intro c hc
            simp only [List.mem_filter] at hc
            left
            exact hkey c hc.1 hc.2
          · intro _ c hc
            simp only [List.mem_filter] at hc
            exact hkey c hc.1 hc.2
        · rw [hf]
          have hcandeq : equalECPubJWK (some cand.ovk_jwk) chosen = true := by
            have := List.find?_some hf
            simpa using this
          have hkey : ∀ c ∈ cm.creds,
              equalECPubJWK (some c.ovk) chosen = true → c.ovk = cand.ovk_jwk := by
            intro c hc hceq
            rcases hch : chosen with _ | o
            · rw [hch] at hceq
              simp [equalECPubJWK] at hceq
            · rw [hch] at hceq
              rw [hch] at hcandeq
              have hco : c.ovk = o := (equalECPubJWK_some_iff _ _).mp hceq
              have hcando : cand.ovk_jwk = o := (equalECPubJWK_some_iff _ _).mp hcandeq
              rw [hco, hcando]
          refine ⟨?_, ?_⟩
          · intro c hc
            simp only [List.mem_filter] at hc
            left
            exact hkey c hc.1 hc.2
          · intro _ c hc
            simp only [List.mem_filter] at hc
            exact hkey c hc.1 hc.2

theorem add_post {cm : CredManager} (cred_jwk : ECPubJWK) (hinv : BindsInv cm) :
    BindsInv (cm.add cred_jwk).2 := by
  unfold CredManager.add
  constructor
  · intro c hc
    rcases List.mem_append.mp hc with h0 | h1
    · exact hinv.1 c h0
    · left
      rw [List.mem_singleton.mp h1]
      rfl
  · intro hn c hc
    rcases List.mem_append.mp hc with h0 | h1
    · exact hinv.2 hn c h0
    · rw [List.mem_singleton.mp h1]
      rfl

theorem mem_recordCandidate_old {x : Candidate} {nx : NextRec} {ovk' : ECPubJWK}
    {r' mac' : String} {now : Int} (h : x ∈ nx.candidates) :
    x ∈ (recordCandidate nx ovk' r' mac' now).candidates := by
  unfold recordCandidate
  by_cases hp : (nx.candidates.any fun c => equalECPubJWK (some c.ovk_jwk) (some ovk')) = true
  · rw [hp]
    simpa using h
  · rw [Bool.eq_false_iff.mpr hp]
    simp only [Bool.not_false, if_true]
    exact List.mem_append_left _ h

theorem recordCandidate_has (nx : NextRec) (ovk' : ECPubJWK) (r' mac' : String)
    (now : Int) :
    ∃ cand ∈ (recordCandidate nx ovk' r' mac' now).candidates, cand.ovk_jwk = ovk' := by
  unfold recordCandidate
  by_cases hp : (nx.candidates.any fun c => equalECPubJWK (some c.ovk_jwk) (some ovk')) = true
  · rw [hp]
    simp only [Bool.not_true, Bool.false_eq_true, if_false]
    rcases List.any_eq_true.mp hp with ⟨cand, hcand, hpp⟩
    exact ⟨cand, hcand, (equalECPubJWK_some_iff _ _).mp hpp⟩
  · rw [Bool.eq_false_iff.mpr hp]
    simp only [Bool.not_false, if_true]
    exact ⟨⟨ovk', r', mac', now⟩, List.mem_append_right _ (by simp), rfl⟩

theorem addUpdating_post {cm : CredManager} (now : Int) (cred ovk' : ECPubJWK)
    (r' mac' : String) (hinv : BindsInv cm) :
    BindsInv (cm.addUpdating now cred ovk' r' mac').2 := by
  by_cases hany : cm.creds.any (fun c => equalECPubJWK (some c.jwk) (some cred)) = true
  · unfold CredManager.addUpdating
    rw [hany]
    simp only [Bool.not_true, Bool.false_eq_true, if_false]
    by_cases hq : ((rebindFirst cm.creds cred ovk').length : ℚ) / 2
        < (countBound (rebindFirst cm.creds cred ovk') ovk' : ℚ)
    · rw [if_pos hq]
      refine ⟨?_, ?_⟩
      · intro c hc
        simp only [List.mem_filter] at hc
        left
        exact (equalECPubJWK_some_iff _ _).mp hc.2
      · intro _ c hc
        simp only [List.mem_filter] at hc
        exact (equalECPubJWK_some_iff _ _).mp hc.2
    · rw [if_neg hq]
      refine ⟨?_, by simp⟩
      intro c hc
      simp only [Option.map_some, Option.getD_some]
      rcases mem_rebindFirst hc with h0 | h1
      · rcases hinv.1 c h0 with hok | ⟨cand2, hcand2, hcoeq⟩
        · left
          exact hok
        · right
          refine ⟨cand2, ?_, hcoeq⟩
          apply mem_recordCandidate_old
          rcases hnx : cm.next with _ | nx
          · rw [hnx] at hcand2
            simp at hcand2
          · rw [hnx] at hcand2
            simpa [baseNext] using hcand2
      · right
        rcases recordCandidate_has (baseNext cm.next now) ovk' r' mac' now
          with ⟨cand, hcand, hco⟩
        exact ⟨cand, hcand, by rw [h1, hco]⟩
  · have hfalse : cm.creds.any (fun c => equalECPubJWK (some c.jwk) (some cred)) = false :=
      Bool.eq_false_iff.mpr hany
    unfold CredManager.addUpdating
    rw [hfalse]
    simpa using hinv

/-- C7: in every reachable CredManager state, each credential binds to the
trusted OVK or to a migration candidate, and to the trusted OVK whenever
`next` is absent. -/
theorem reach_binds_inv (cm : CredManager) (h : Reach cm) : BindsInv cm := by
  induction h with
  | init cred_jwk ovkm =>
    refine ⟨?_, ?_⟩
    · intro c hc
      simp only [CredManager.init, List.mem_singleton] at hc
      left
      rw [hc]
      rfl
    · intro _ c hc
      simp only [CredManager.init, List.mem_singleton] at hc
      rw [hc]
      rfl
  | add cm cred_jwk _ ih => exact add_post cred_jwk ih
  | addUpd cm now cred ovk' r' mac' _ ih => exact addUpdating_post now cred ovk' r' mac' ih
  | isUpd cm fuel now b cm' _ heq ih => exact isUpdatingF_post ih heq
  | getCreds cm fuel now v cm' _ heq ih =>
    unfold CredManager.getCredsF at heq
    rcases hup : cm.isUpdatingF fuel now with _ | p
    · rw [hup] at heq
      simp at heq
    · rw [hup] at heq
      rcases p with ⟨b, cmx⟩
      have hpost := isUpdatingF_post ih hup
      rcases hb : b with _ | _
      · rw [hb] at heq
        simp only [Bool.false_eq_true, if_false, Option.some.injEq, Prod.mk.injEq] at heq
        rw [← heq.2]
        exact hpost
      · rw [hb] at heq
        simp only [if_true, Option.some.injEq, Prod.mk.injEq] at heq
        rw [← heq.2]
        exact hpost

/-- Witness for C7: a two-step reachable state. -/
theorem reach_binds_inv_witness :
    Reach ((CredManager.init jwkA ⟨jwkO, "r0", "m0"⟩).add jwkB).2
    ∧ BindsInv ((CredManager.init jwkA ⟨jwkO, "r0", "m0"⟩).add jwkB).2 :=
  ⟨Reach.add _ _ (Reach.init jwkA ⟨jwkO, "r0", "m0"⟩),
   reach_binds_inv _ (Reach.add _ _ (Reach.init jwkA ⟨jwkO, "r0", "m0"⟩))⟩

/-! ## Seed (from `src/seed.ts` / the identical `SeedImpl` in `client.js`)

The platform primitives are abstract parameters over a byte-string type
`B`: `hkdf s r` stands for the OVK secret scalar obtained by
`ECPrivKey.fromSecret(HKDF(s, r, 256)).d` and `hmac k r svc` for
`HMAC-SHA256(k, r || UTF8(svc))`; `ecSign d m` is an ECDSA signature with
secret `d` over `m`; `encodeJwk` is `UTF8(JSON.stringify(jwk))`; `pubOf d`
is the public JWK of the secret `d`. The ephemeral negotiation record keeps
an abstract private-key type `K`. -/

/-- Meta data of a negotiation session. -/
structure Meta where
  id : String
  partnerID : String
  devNum : Nat
deriving DecidableEq

/-- The ephemeral negotiation record `this.e`. -/
structure Eph (K : Type) where
  meta : Meta
  sk : K
  idx : Nat
deriving DecidableEq

/-- `SeedImpl` state: the seed list and the ephemeral record. -/
structure SeedSt (B K : Type) where
  seeds : List B
  e : Option (Eph K)
deriving DecidableEq

/-- Typed errors thrown by the Seed subsystem. -/
inductive SeedErr where
  | noSeed
  | notUpdating
  | invalidState
  | metaMismatch
deriving DecidableEq

/-- The abstract crypto primitives that Seed builds on. -/
structure SeedPrims (B : Type) where
  hkdf : B → B → B
  hmac : B → B → String → B
  ecSign : B → B → B
  encodeJwk : ECPubJWK → B
  pubOf : B → ECPubJWK

variable {B K : Type}

/-- The private `seed` getter: last seed or a `NoSeed` throw. -/
def SeedSt.seedLast (st : SeedSt B K) : Except SeedErr B :=
  match st.seeds.getLast? with
  | none => .error .noSeed
  | some s => .ok s

/-- The private `OVK(r, s?)` helper: derive the OVK secret from the given
seed, or from the last seed when none is given. -/
def OVKd (p : SeedPrims B) (st : SeedSt B K) (r : B) (s : Option B) :
    Except SeedErr B :=
  match s with
  | some s => .ok (p.hkdf s r)
  | none =>
    match st.seedLast with
    | .error e => .error e
    | .ok sl => .ok (p.hkdf sl r)

/-- `SeedImpl.deriveOVK`. -/
def deriveOVK (p : SeedPrims B) (st : SeedSt B K) (r : B) :
    Except SeedErr ECPubJWK × SeedSt B K :=
  match OVKd p st r none with
  | .error e => (.error e, st)
  | .ok d => (.ok (p.pubOf d), st)

/-- `SeedImpl.macOVK`. -/
def macOVK (p : SeedPrims B) (st : SeedSt B K) (r : B) (svcID : String) :
    Except SeedErr B × SeedSt B K :=
  match OVKd p st r none with
  | .error e => (.error e, st)
  | .ok d => (.ok (p.hmac d r svcID), st)

/-- `SeedImpl.verifyOVK`: recompute the MAC and compare (the platform
`HMAC.verify`). -/
def verifyOVK [DecidableEq B] (p : SeedPrims B) (st : SeedSt B K) (r : B)
    (svcID : String) (mac : B) : Except SeedErr Bool × SeedSt B K :=
  match OVKd p st r none with
  | .error e => (.error e, st)
  | .ok d => (.ok (decide (p.hmac d r svcID = mac)), st)

/-- `SeedImpl.signOVK`. -/
def signOVK (p : SeedPrims B) (st : SeedSt B K) (r : B) (cred : B) :
    Except SeedErr B × SeedSt B K :=
  match OVKd p st r none with
  | .error e => (.error e, st)
  | .ok d => (.ok (p.ecSign d cred), st)

/-- `SeedImpl.isUpdating`. -/
def seedIsUpdating (st : SeedSt B K) : Bool :=
  decide (st.seeds.length > 1)

/-- `SeedImpl.update`: sign the next OVK with the OVK derived from the
previous seed (`seeds[len - 2]`). -/
def seedUpdate (p : SeedPrims B) (st : SeedSt B K) (prevR : B)
    (nextOVK : ECPubJWK) : Except SeedErr B × SeedSt B K :=
  if seedIsUpdating st then
    match st.seeds.get? (st.seeds.length - 2) with
    | none => (.error .noSeed, st)
    | some s =>
      match OVKd p st prevR (some s) with
      | .error e => (.error e, st)
      | .ok d => (.ok (p.ecSign d (p.encodeJwk nextOVK)), st)
  else
    (.error .notUpdating, st)

/-- `SeedImpl.completeUpdation`: drop the previous seed (`seeds.shift()`). -/
def completeUpdation (st : SeedSt B K) : Except SeedErr Unit × SeedSt B K :=
  if seedIsUpdating st then
    ((.ok ()), { st with seeds := st.seeds.tail })
  else
    (.error .notUpdating, st)

/-! ### C10: the derivation and signing operations never mutate the seed -/

/-- C10: `deriveOVK`, `macOVK`, `verifyOVK`, `signOVK` and `update` return
the seed state unchanged — seed list and ephemeral record — whether they
succeed or throw. -/
theorem seed_read_ops_frame [DecidableEq B] (p : SeedPrims B) (st : SeedSt B K)
    (r mac cred prevR : B) (svcID : String) (nextOVK : ECPubJWK) :
    (deriveOVK p st r).2 = st
    ∧ (macOVK p st r svcID).2 = st
    ∧ (verifyOVK p st r svcID mac).2 = st
    ∧ (signOVK p st r cred).2 = st
    ∧ (seedUpdate p st prevR nextOVK).2 = st := by
  refine ⟨?_, ?_, ?_, ?_, ?_⟩
  · unfold deriveOVK
    rcases OVKd p st r none with e | d <;> rfl
  · unfold macOVK
    rcases OVKd p st r none with e | d <;> rfl
  · unfold verifyOVK
    rcases OVKd p st r none with e | d <;> rfl
  · unfold signOVK
    rcases OVKd p st r none with e | d <;> rfl
  · unfold seedUpdate
    by_cases hu : seedIsUpdating st = true
    · rw [if_pos hu]
      rcases st.seeds.get? (st.seeds.length - 2) with _ | s
      · rfl
      · rcases OVKd p st prevR (some s) with e | d <;> rfl
    · rw [if_neg hu]

/-! ### C8: the MAC round-trip -/

/-- C8: on a Seed holding at least one seed, `verifyOVK` accepts the MAC
produced by `macOVK` for the same `r` and service identifier. -/
theorem verifyOVK_macOVK_roundtrip [DecidableEq B] (p : SeedPrims B)
    (st : SeedSt B K) (r : B) (svcID : String) (h : st.seeds ≠ []) :
    ∃ mac, macOVK p st r svcID = (.ok mac, st)
      ∧ verifyOVK p st r svcID mac = (.ok true, st) := by
  rcases hlast : st.seeds.getLast? with _ | sl
  · exact absurd (List.getLast?_eq_none_iff.mp hlast) h
  · refine ⟨p.hmac (p.hkdf sl r) r svcID, ?_, ?_⟩
    · unfold macOVK OVKd SeedSt.seedLast
      rw [hlast]
    · unfold verifyOVK OVKd SeedSt.seedLast
      rw [hlast]
      simp

/-- Witness for C8 with naturals for byte strings. -/
theorem verifyOVK_macOVK_roundtrip_witness :
    ((⟨[5], none⟩ : SeedSt Nat Unit).seeds ≠ [])
    ∧ ∃ mac, macOVK ⟨fun s r => s + r, fun k r svc => k * 31 + r + svc.length,
          fun d m => d + m, fun _ => 0, fun _ => jwkO⟩ (⟨[5], none⟩ : SeedSt Nat Unit)
          3 "svc1" = (.ok mac, ⟨[5], none⟩)
        ∧ verifyOVK ⟨fun s r => s + r, fun k r svc => k * 31 + r + svc.length,
            fun d m => d + m, fun _ => 0, fun _ => jwkO⟩ (⟨[5], none⟩ : SeedSt Nat Unit)
            3 "svc1" mac = (.ok true, ⟨[5], none⟩) :=
  ⟨by decide,
   verifyOVK_macOVK_roundtrip ⟨fun s r => s + r, fun k r svc => k * 31 + r + svc.length,
     fun d m => d + m, fun _ => 0, fun _ => jwkO⟩ ⟨[5], none⟩ 3 "svc1" (by decide)⟩

/-! ## Service (from `publish/client.js`)

JavaScript objects used as dictionaries (`this.db`, `this.challengeDB`) are
association lists; ECDSA verification is an abstract boolean oracle over
the structured messages the source signs. `register` and `authn` on a
username whose challenge entry was never created throw a `TypeError`
(`.pop()` on `undefined`); a call into a non-terminating
`CredManager.isUpdating` has no outcome at all, which the embedding writes
as `none`. -/

/-- The structured messages the Service verifies signatures over. -/
inductive SigMsg where
  /-- `CONCAT(challenge, UTF8(JSON.stringify(cred_jwk)))`. -/
  | concatChallengeJwk (challenge_b64u : String) (jwk : ECPubJWK)
  /-- `UTF8(JSON.stringify(jwk))` (credential or next-OVK JSON). -/
  | jwkJson (jwk : ECPubJWK)
  /-- The raw challenge bytes. -/
  | rawChallenge (challenge_b64u : String)
deriving DecidableEq

/-- Abstract ECDSA verification oracle: key, message, signature. -/
def EcVerify : Type := ECPubJWK → SigMsg → String → Bool

/-- A registration credential bundle `(jwk, atts)`. -/
structure CredBundle where
  jwk : ECPubJWK
  atts_sig_b64u : String
  atts_key : ECPubJWK
deriving DecidableEq

/-- The `ovkm` argument of `register`: a full OVKM or an OVK signature. -/
inductive RegOvkm where
  | ovkm (o : OVKM)
  | sig (sig_b64u : String)
deriving DecidableEq

/-- The `updating` payload of `authn`. -/
structure UpdMsg where
  update_b64u : String
  ovkm : OVKM
deriving DecidableEq

/-- The only uncaught JavaScript error the Service boundary can raise. -/
inductive JsErr where
  | typeError
deriving DecidableEq

/-- Association-list lookup (`obj[key]`). -/
def alookup {α : Type} (l : List (String × α)) (k : String) : Option α :=
  (l.find? fun p => p.1 == k).map Prod.snd

/-- Association-list update (`obj[key] = v`). -/
def aset {α : Type} (l : List (String × α)) (k : String) (v : α) :
    List (String × α) :=
  match l with
  | [] => [(k, v)]
  | p :: rest => if p.1 == k then (k, v) :: rest else p :: aset rest k v

/-- Service state: per-user challenge stacks and CredManagers. -/
structure ServiceSt where
  challengeDB : List (String × List String)
  db : List (String × CredManager)
deriving DecidableEq

/-- `Service.register`. `none` is a call that never returns (the
`isUpdating` timeout loop), `some (.error _)` an uncaught throw. -/
def register (ec : EcVerify) (st : ServiceSt) (name : String) (cred : CredBundle)
    (ovkm : RegOvkm) (fuel : Nat) (now : Int) :
    Option (Except JsErr (Bool × ServiceSt)) :=
  match alookup st.challengeDB name with
  | none => some (.error .typeError)
  | some stack =>
    let st1 : ServiceSt := { st with challengeDB := aset st.challengeDB name stack.dropLast }
    match stack.getLast? with
    | none => some (.ok (false, st1))
    | some challenge_b64u =>
      if !(ec cred.atts_key (.concatChallengeJwk challenge_b64u cred.jwk)
            cred.atts_sig_b64u) then
        some (.ok (false, st1))
      else
        match alookup st1.db name with
        | none =>
          match ovkm with
          | .ovkm o =>
            some (.ok (true, { st1 with db := aset st1.db name (CredManager.init cred.jwk o) }))
          | .sig _ => some (.ok (false, st1))
        | some cm =>
          match ovkm with
          | .ovkm _ => some (.ok (false, st1))
          | .sig sig_b64u =>
            match cm.isUpdatingF fuel now with
            | none => none
            | some (b, cm1) =>
              let st2 : ServiceSt := { st1 with db := aset st1.db name cm1 }
              if b then some (.ok (false, st2))
              else if !(ec cm1.getOVK (.jwkJson cred.jwk) sig_b64u) then
                some (.ok (false, st2))
              else
                let added := cm1.add cred.jwk
                some (.ok (added.1, { st2 with db := aset st2.db name added.2 }))

/-- `Service.update`: verify the update signature under the trusted OVK and
feed the new OVKM into `addUpdating`. -/
def updateSvc (ec : EcVerify) (st : ServiceSt) (name : String) (cred_jwk : ECPubJWK)
    (update_b64u : String) (ovkm_next : OVKM) (now : Int) : Bool × ServiceSt :=
  match alookup st.db name with
  | none => (false, st)
  | some cm =>
    if !(ec cm.getOVK (.jwkJson ovkm_next.ovk_jwk) update_b64u) then
      (false, st)
    else
      let res := cm.addUpdating now cred_jwk ovkm_next.ovk_jwk ovkm_next.r_b64u
        ovkm_next.mac_b64u
      (res.1, { st with db := aset st.db name res.2 })

/-- `Service.authn`. -/
def authn (ec : EcVerify) (st : ServiceSt) (name : String) (cred_jwk : ECPubJWK)
    (sig_b64u : String) (updating : Option UpdMsg) (now : Int) :
    Except JsErr (Bool × ServiceSt) :=
  let step :=
    match updating with
    | none => (true, st)
    | some u => updateSvc ec st name cred_jwk u.update_b64u u.ovkm now
  if !step.1 then
    .ok (false, step.2)
  else
    let st1 := step.2
    match alookup st1.challengeDB name with
    | none => .error .typeError
    | some stack =>
      let st2 : ServiceSt := { st1 with challengeDB := aset st1.challengeDB name stack.dropLast }
      match stack.getLast? with
      | none => .ok (false, st2)
      | some challenge_b64u =>
        match alookup st2.db name with
        | none => .ok (false, st2)
        | some cm =>
          if !(cm.isCred cred_jwk) then
            .ok (false, st2)
          else
            .ok (ec cred_jwk (.rawChallenge challenge_b64u) sig_b64u, st2)

/-! ### Association-list lemmas -/

theorem alookup_aset_self {α : Type} (l : List (String × α)) (k : String) (v : α) :
    alookup (aset l k v) k = some v := by
  induction l with
  | nil => simp [aset, alookup]
  | cons p rest ih =>
    by_cases hp : p.1 == k
    · simp [aset, alookup, hp]
    · simp only [aset, hp, Bool.false_eq_true, if_false]
      simpa [alookup, hp] using ih

theorem alookup_aset_ne {α : Type} (l : List (String × α)) (k n : String) (v : α)
    (h : n ≠ k) :
    alookup (aset l k v) n = alookup l n := by
  have hkn : (k == n) = false := by
    simp only [beq_eq_false_iff_ne]
    exact fun e => h e.symm
  induction l with
  | nil => simp [aset, alookup, hkn]
  | cons p rest ih =>
    by_cases hp : p.1 == k
    · have hpk : p.1 = k := by simpa using hp
      simp [aset, alookup, hp, hkn, hpk]
    · simp only [aset, hp, Bool.false_eq_true, if_false]
      by_cases hpn : p.1 == n
      · simp [alookup, hpn]
      · simp only [alookup, List.find?] at ih ⊢
        simp [hpn, ih]

/-! ### C6: missing challenge entries crash the Service boundary -/

/-- C6: on a username for which `startAuthn` was never called (so the
challenge map has no entry at all), both `register` and `authn` throw a
`TypeError` from `.pop()` on `undefined` instead of returning false. -/
theorem register_authn_throw_without_challenge_entry (ec : EcVerify)
    (cred : CredBundle) (ovkm : RegOvkm) (cred_jwk : ECPubJWK)
    (sig_b64u : String) (fuel : Nat) (now : Int) :
    register ec ⟨[], []⟩ "alice" cred ovkm fuel now = some (.error .typeError)
    ∧ authn ec ⟨[], []⟩ "alice" cred_jwk sig_b64u none now = .error .typeError :=
  ⟨rfl, rfl⟩

/-! ### C4: what a false-returning call can leave behind -/

/-- An ECDSA oracle that rejects everything. -/
def ecFalse : EcVerify := fun _ _ _ => false

/-- Counterexample to C4 as stated: a `register` call that returns false
(failed attestation) has consumed the pending challenge, so the service
state is not the same as before the call. -/
theorem register_false_mutates_state :
    register ecFalse ⟨[("alice", ["c1"])], []⟩ "alice" ⟨jwkA, "as", jwkB⟩
        (RegOvkm.sig "s") 9 0
      = some (.ok (false, ⟨[("alice", [])], []⟩))
    ∧ (⟨[("alice", [])], []⟩ : ServiceSt) ≠ (⟨[("alice", ["c1"])], []⟩ : ServiceSt) :=
  ⟨rfl, by decide⟩

/-- Challenge stacks and CredManagers of other users are untouched. -/
def OtherUsersUnchanged (st st' : ServiceSt) (name : String) : Prop :=
  ∀ n, n ≠ name →
    alookup st'.challengeDB n = alookup st.challengeDB n
    ∧ alookup st'.db n = alookup st.db n

/-- What a false-returning `register` may change: the username's challenge
stack is popped, and the username's CredManager advances only by the
embedded `isUpdating` call; everything else is untouched. -/
def RegisterFalsePost (st : ServiceSt) (name : String) (fuel : Nat) (now : Int)
    (st' : ServiceSt) : Prop :=
  OtherUsersUnchanged st st' name
  ∧ (∃ stack, alookup st.challengeDB name = some stack
      ∧ alookup st'.challengeDB name = some stack.dropLast)
  ∧ (alookup st'.db name = alookup st.db name
     ∨ ∃ cm b2 cm2, alookup st.db name = some cm
         ∧ cm.isUpdatingF fuel now = some (b2, cm2)
         ∧ alookup st'.db name = some cm2)

/-- What a false-returning `authn` may change: the CredManagers advance
exactly by the embedded `update` pre-processing, and the username's
challenge stack is popped or untouched. -/
def AuthnFalsePost (ec : EcVerify) (st : ServiceSt) (name : String)
    (cred_jwk : ECPubJWK) (updating : Option UpdMsg) (now : Int)
    (st' : ServiceSt) : Prop :=
  let st1 := match updating with
    | none => st
    | some u => (updateSvc ec st name cred_jwk u.update_b64u u.ovkm now).2
  st'.db = st1.db
  ∧ (st'.challengeDB = st1.challengeDB
     ∨ ∃ stack, alookup st1.challengeDB name = some stack
         ∧ st'.challengeDB = aset st1.challengeDB name stack.dropLast)

/-- C4 (amended): a false-returning `register` or `authn` leaves no state
change beyond consuming the username's pending challenge and the
CredManager mutations of the embedded `isUpdating` / `update` steps. -/
theorem service_false_frame (ec : EcVerify) (st : ServiceSt) (name : String)
    (cred : CredBundle) (ovkm : RegOvkm) (cred_jwk : ECPubJWK)
    (sig_b64u : String) (updating : Option UpdMsg) (fuel : Nat) (now : Int) :
    (∀ st', register ec st name cred ovkm fuel now = some (.ok (false, st')) →
       RegisterFalsePost st name fuel now st')
    ∧ (∀ st', authn ec st name cred_jwk sig_b64u updating now = .ok (false, st') →
       AuthnFalsePost ec st name cred_jwk updating now st') := by
  constructor
  · intro st' h
    unfold register at h
    rcases hch : alookup st.challengeDB name with _ | stack
    · rw [hch] at h
      simp at h
    · rw [hch] at h
      dsimp only at h
      have hother : OtherUsersUnchanged st
          { st with challengeDB := aset st.challengeDB name stack.dropLast } name := by
        intro n hn
        exact ⟨alookup_aset_ne _ _ _ _ hn, rfl⟩
      have hstack : alookup (aset st.challengeDB name stack.dropLast) name
          = some stack.dropLast := alookup_aset_self _ _ _
      rcases hlast : stack.getLast? with _ | challenge
      · rw [hlast] at h
        simp only [Option.some.injEq, Except.ok.injEq, Prod.mk.injEq] at h
        rw [← h.2]
        exact ⟨hother, ⟨stack, hch, hstack⟩, Or.inl rfl⟩
      · rw [hlast] at h
        dsimp only at h
        by_cases hatts : ec cred.atts_key (.concatChallengeJwk challenge cred.jwk)
            cred.atts_sig_b64u = true
        · rw [hatts] at h
          simp only [Bool.not_true, Bool.false_eq_true, if_false] at h
          rcases hdb : alookup st.db name with _ | cm
          · rw [hdb] at h
            rcases ovkm with o | s
            · simp at h
            · simp only [Option.some.injEq, Except.ok.injEq, Prod.mk.injEq] at h
              rw [← h.2]
              exact ⟨hother, ⟨stack, hch, hstack⟩, Or.inl rfl⟩
          · rw [hdb] at h
            rcases ovkm with o | s
            · simp only [Option.some.injEq, Except.ok.injEq, Prod.mk.injEq] at h
              rw [← h.2]
              exact ⟨hother, ⟨stack, hch, hstack⟩, Or.inl rfl⟩
            · dsimp only at h
              rcases hup : cm.isUpdatingF fuel now with _ | p
              · rw [hup] at h
                simp at h
              · rw [hup] at h
                rcases p with ⟨b, cm1⟩
                dsimp only at h
                have hdbself :
                    alookup (aset st.db name cm1) name = some cm1 :=
                  alookup_aset_self _ _ _
                have hother2 : OtherUsersUnchanged st
                    { challengeDB := aset st.challengeDB name stack.dropLast,
                      db := aset st.db name cm1 } name := by
                  intro n hn
                  exact ⟨alookup_aset_ne _ _ _ _ hn, alookup_aset_ne _ _ _ _ hn⟩
                rcases hb : b with _ | _
                · rw [hb] at h
                  simp only [Bool.false_eq_true, if_false] at h
                  by_cases hovk : ec cm1.getOVK (.jwkJson cred.jwk) s = true
                  · rw [hovk] at h
                    simp [CredManager.add] at h
                  · rw [Bool.eq_false_iff.mpr hovk] at h
                    simp only [Bool.not_false, if_true, Option.some.injEq,
                      Except.ok.injEq, Prod.mk.injEq] at h
                    rw [← h.2]
                    exact ⟨hother2, ⟨stack, hch, hstack⟩,
                      Or.inr ⟨cm, false, cm1, hdb, hb ▸ hup, hdbself⟩⟩
                · rw [hb] at h
                  simp only [if_true, Option.some.injEq, Except.ok.injEq,
                    Prod.mk.injEq] at h
                  rw [← h.2]
                  exact ⟨hother2, ⟨stack, hch, hstack⟩,
                    Or.inr ⟨cm, true, cm1, hdb, hb ▸ hup, hdbself⟩⟩
        · rw [Bool.eq_false_iff.mpr hatts] at h
          simp only [Bool.not_false, if_true, Option.some.injEq, Except.ok.injEq,
            Prod.mk.injEq] at h
          rw [← h.2]
          exact ⟨hother, ⟨stack, hch, hstack⟩, Or.inl rfl⟩
  · intro st' h
    unfold authn at h
    rcases hupd : updating with _ | u
    · rw [hupd] at h
      dsimp only at h
      simp only [Bool.not_true, Bool.false_eq_true, if_false] at h
      rcases hch : alookup st.challengeDB name with _ | stack
      · rw [hch] at h
        simp at h
      · rw [hch] at h
        dsimp only at h
        rcases hlast : stack.getLast? with _ | challenge
        · rw [hlast] at h
          simp only [Except.ok.injEq, Prod.mk.injEq] at h
          rw [← h.2]
          exact ⟨rfl, Or.inr ⟨stack, hch, rfl⟩⟩
        · rw [hlast] at h
          rcases hdb : alookup st.db name with _ | cm
          · rw [hdb] at h
            simp only [Except.ok.injEq, Prod.mk.injEq] at h
            rw [← h.2]
            exact ⟨rfl, Or.inr ⟨stack, hch, rfl⟩⟩
          · rw [hdb] at h
            dsimp only at h
            by_cases hic : cm.isCred cred_jwk = true
            · rw [hic] at h
              simp only [Bool.not_true, Bool.false_eq_true, if_false,
                Except.ok.injEq, Prod.mk.injEq] at h
              rw [← h.2]
              exact ⟨rfl, Or.inr ⟨stack, hch, rfl⟩⟩
            · rw [Bool.eq_false_iff.mpr hic] at h
              simp only [Bool.not_false, if_true, Except.ok.injEq,
                Prod.mk.injEq] at h
              rw [← h.2]
              exact ⟨rfl, Or.inr ⟨stack, hch, rfl⟩⟩
    · rw [hupd] at h
      dsimp only at h
      rcases hu : updateSvc ec st name cred_jwk u.update_b64u u.ovkm now with ⟨ub, st1⟩
      rw [hu] at h
      dsimp only at h
      rcases hub : ub with _ | _
      · rw [hub] at h
        simp only [Bool.not_false, if_true, Except.ok.injEq, Prod.mk.injEq] at h
        rw [← h.2]
        refine ⟨by dsimp only; rw [hu], Or.inl (by dsimp only; rw [hu])⟩
      · rw [hub] at h
        simp only [Bool.not_true, Bool.false_eq_true, if_false] at h
        rcases hch : alookup st1.challengeDB name with _ | stack
        · rw [hch] at h
          simp at h
        · rw [hch] at h
          dsimp only at h
          have hst1 : (updateSvc ec st name cred_jwk u.update_b64u u.ovkm now).2 = st1 := by
            rw [hu]
          rcases hlast : stack.getLast? with _ | challenge
          · rw [hlast] at h
            simp only [Except.ok.injEq, Prod.mk.injEq] at h
            rw [← h.2]
            exact ⟨by dsimp only; rw [hst1], Or.inr ⟨stack, by dsimp only; rw [hst1]; exact hch, by dsimp only; rw [hst1]⟩⟩
          · rw [hlast] at h
            rcases hdb : alookup st1.db name with _ | cm
            · rw [hdb] at h
              simp only [Except.ok.injEq, Prod.mk.injEq] at h
              rw [← h.2]
              exact ⟨by dsimp only; rw [hst1], Or.inr ⟨stack, by dsimp only; rw [hst1]; exact hch, by dsimp only; rw [hst1]⟩⟩
            · rw [hdb] at h
              dsimp only at h
              by_cases hic : cm.isCred cred_jwk = true
              · rw [hic] at h
                simp only [Bool.not_true, Bool.false_eq_true, if_false,
                  Except.ok.injEq, Prod.mk.injEq] at h
                rw [← h.2]
                exact ⟨by dsimp only; rw [hst1], Or.inr ⟨stack, by dsimp only; rw [hst1]; exact hch, by dsimp only; rw [hst1]⟩⟩
              · rw [Bool.eq_false_iff.mpr hic] at h
                simp only [Bool.not_false, if_true, Except.ok.injEq,
                  Prod.mk.injEq] at h
                rw [← h.2]
                exact ⟨by dsimp only; rw [hst1], Or.inr ⟨stack, by dsimp only; rw [hst1]; exact hch, by dsimp only; rw [hst1]⟩⟩

/-- Witness for the amended C4 at a concrete failing register and authn. -/
theorem service_false_frame_witness :
    (register ecFalse ⟨[("alice", ["c1"])], []⟩ "alice" ⟨jwkA, "as", jwkB⟩
        (RegOvkm.sig "s") 9 0 = some (.ok (false, ⟨[("alice", [])], []⟩)))
    ∧ RegisterFalsePost ⟨[("alice", ["c1"])], []⟩ "alice" 9 0 ⟨[("alice", [])], []⟩
    ∧ (authn ecFalse ⟨[("alice", ["c1"])], []⟩ "alice" jwkA "s" none 0
        = .ok (false, ⟨[("alice", [])], []⟩))
    ∧ AuthnFalsePost ecFalse ⟨[("alice", ["c1"])], []⟩ "alice" jwkA none 0
        ⟨[("alice", [])], []⟩ :=
  ⟨rfl,
   (service_false_frame ecFalse ⟨[("alice", ["c1"])], []⟩ "alice" ⟨jwkA, "as", jwkB⟩
     (RegOvkm.sig "s") jwkA "s" none 9 0).1 ⟨[("alice", [])], []⟩ rfl,
   rfl,
   (service_false_frame ecFalse ⟨[("alice", ["c1"])], []⟩ "alice" ⟨jwkA, "as", jwkB⟩
     (RegOvkm.sig "s") jwkA "s" none 9 0).2 ⟨[("alice", [])], []⟩ rfl⟩

/-! ## Device.authn (from `publish/client.js`, lines 886-949)

The device holds private credential JWKs (public fields plus `d`); the
Seed is used through its interface, abstracted as a record of boolean and
byte-string functions over base64url strings (the decode steps are folded
into the abstract operations). The `publish/client.js` revision returns the
bare response not only when the seed is not updating but also when the
service's current `(r, mac)` still validates under the current seed; the
`src/device.ts` revision omits that second check. -/

/-- A private credential JWK: the public fields plus the scalar `d`.
`equalECPubJWK(pk, sk)` in the source compares the public fields only. -/
structure ECPirvJWK where
  d : String
  pub : ECPubJWK
deriving DecidableEq

/-- The Seed operations `Device.authn` consumes, as a record: the state of
the seed is fixed for the duration of the call. -/
structure DevSeedOps where
  isUpdating : Bool
  verifyOVK : String → String → String → Bool
  deriveOVK : String → ECPubJWK
  macOVK : String → String → String
  update : String → ECPubJWK → String

/-- The error `Device.authn` throws when no stored credential matches. -/
inductive DevErr where
  | noMatchingCredential
deriving DecidableEq

/-- The `updating` part of an authentication response. -/
structure UpdOut where
  update_b64u : String
  ovkm : OVKM
deriving DecidableEq

/-- An authentication response `(cred_jwk, sig, updating?)`. -/
structure AuthnResp where
  cred_jwk : ECPubJWK
  sig_b64u : String
  updating : Option UpdOut
deriving DecidableEq

/-- The search for a candidate in `ovkm.next` whose `(r, mac)` validates
under the current seed. -/
def findCorrect (ops : DevSeedOps) (svcID : String) (next : Option (List OVKM)) :
    Option OVKM :=
  match next with
  | none => none
  | some nexts => nexts.find? fun o => ops.verifyOVK o.r_b64u svcID o.mac_b64u

/-- `Device.authn` of `publish/client.js`: locate the credential, sign the
challenge, and decide whether and how to attach an update message. -/
def deviceAuthn (ops : DevSeedOps) (sign : ECPirvJWK → String → String)
    (devCreds : List ECPirvJWK) (svcID challenge_b64u : String)
    (svcCreds : List ECPubJWK) (ovkm_r ovkm_mac : String)
    (next : Option (List OVKM)) (freshR : String) : Except DevErr AuthnResp :=
  match devCreds.find? fun sk => svcCreds.any fun pk => equalECPubJWK (some pk) (some sk.pub) with
  | none => .error .noMatchingCredential
  | some sk =>
    let cred_jwk := sk.pub
    let sig_b64u := sign sk challenge_b64u
    if !ops.isUpdating || ops.verifyOVK ovkm_r svcID ovkm_mac then
      .ok ⟨cred_jwk, sig_b64u, none⟩
    else
      match findCorrect ops svcID next with
      | some o => .ok ⟨cred_jwk, sig_b64u, some ⟨ops.update ovkm_r o.ovk_jwk, o⟩⟩
      | none =>
        let ovk := ops.deriveOVK freshR
        let mac := ops.macOVK freshR svcID
        .ok ⟨cred_jwk, sig_b64u, some ⟨ops.update ovkm_r ovk, ⟨ovk, freshR, mac⟩⟩⟩

/-- Counterexample to C5 as stated: with the seed updating but the current
OVKM still validating under the current seed, `Device.authn` of
`publish/client.js` returns no `updating` field at all. -/
theorem deviceAuthn_updating_but_no_update_field :
    deviceAuthn ⟨true, fun _ _ _ => true, fun _ => jwkX, fun _ _ => "m", fun _ _ => "u"⟩
        (fun _ _ => "sig") [⟨"d", jwkA⟩] "svc1" "ch" [jwkA] "r0" "m0" none "r1"
      = .ok ⟨jwkA, "sig", none⟩
    ∧ (⟨true, fun _ _ _ => true, fun _ => jwkX, fun _ _ => "m",
        fun _ _ => "u"⟩ : DevSeedOps).isUpdating = true :=
  ⟨rfl, rfl⟩

/-- C5 (amended): with a matching credential found, the response is exactly
the bare `(cred_jwk, sig)` when the seed is not updating or the current
`(r, mac)` validates; otherwise it carries an `updating` field built from
the first validating candidate of `next` when one exists, and from freshly
derived OVK material otherwise — in both cases with the update signature of
`seed.update` over the chosen next OVK. -/
theorem deviceAuthn_spec (ops : DevSeedOps) (sign : ECPirvJWK → String → String)
    (devCreds : List ECPirvJWK) (svcID challenge_b64u : String)
    (svcCreds : List ECPubJWK) (ovkm_r ovkm_mac : String)
    (next : Option (List OVKM)) (freshR : String) (sk : ECPirvJWK)
    (hfind : devCreds.find?
        (fun sk => svcCreds.any fun pk => equalECPubJWK (some pk) (some sk.pub))
      = some sk) :
    (ops.isUpdating = false ∨ ops.verifyOVK ovkm_r svcID ovkm_mac = true →
       deviceAuthn ops sign devCreds svcID challenge_b64u svcCreds ovkm_r ovkm_mac
         next freshR = .ok ⟨sk.pub, sign sk challenge_b64u, none⟩)
    ∧ (ops.isUpdating = true → ops.verifyOVK ovkm_r svcID ovkm_mac = false →
        (∀ o, findCorrect ops svcID next = some o →
          deviceAuthn ops sign devCreds svcID challenge_b64u svcCreds ovkm_r ovkm_mac
            next freshR
            = .ok ⟨sk.pub, sign sk challenge_b64u,
                some ⟨ops.update ovkm_r o.ovk_jwk, o⟩⟩)
        ∧ (findCorrect ops svcID next = none →
          deviceAuthn ops sign devCreds svcID challenge_b64u svcCreds ovkm_r ovkm_mac
            next freshR
            = .ok ⟨sk.pub, sign sk challenge_b64u,
                some ⟨ops.update ovkm_r (ops.deriveOVK freshR),
                  ⟨ops.deriveOVK freshR, freshR, ops.macOVK freshR svcID⟩⟩⟩)) := by
  constructor
  · intro hcase
    unfold deviceAuthn
    rw [hfind]
    have hcond : (!ops.isUpdating || ops.verifyOVK ovkm_r svcID ovkm_mac) = true := by
      rcases hcase with hc | hc
      · rw [hc]
        rfl
      · rw [hc]
        simp
    dsimp only
    rw [hcond]
    rfl
  · intro hupd hmac
    have hcond : (!ops.isUpdating || ops.verifyOVK ovkm_r svcID ovkm_mac) = false := by
      rw [hupd, hmac]
      rfl
    constructor
    · intro o ho
      unfold deviceAuthn
      rw [hfind]
      dsimp only
      rw [hcond]
      simp only [Bool.false_eq_true, if_false]
      rw [ho]
    · intro ho
      unfold deviceAuthn
      rw [hfind]
      dsimp only
      rw [hcond]
      simp only [Bool.false_eq_true, if_false]
      rw [ho]

/-- Witness for the amended C5: a bare response when not updating, and an
update from a validating candidate when updating. -/
theorem deviceAuthn_spec_witness :
    (([⟨"d", jwkA⟩] : List ECPirvJWK).find?
        (fun sk => ([jwkA] : List ECPubJWK).any fun pk =>
          equalECPubJWK (some pk) (some sk.pub)) = some ⟨"d", jwkA⟩)
    ∧ (deviceAuthn ⟨false, fun _ _ _ => false, fun _ => jwkX, fun _ _ => "m",
          fun _ _ => "u"⟩ (fun _ _ => "sig") [⟨"d", jwkA⟩] "svc1" "ch" [jwkA]
          "r0" "m0" none "r1"
        = .ok ⟨jwkA, "sig", none⟩) :=
  ⟨by decide,
   (deviceAuthn_spec ⟨false, fun _ _ _ => false, fun _ => jwkX, fun _ _ => "m",
       fun _ _ => "u"⟩ (fun _ _ => "sig") [⟨"d", jwkA⟩] "svc1" "ch" [jwkA]
       "r0" "m0" none "r1" ⟨"d", jwkA⟩ (by decide)).1 (Or.inl rfl)⟩

/-! ## Seed negotiation (from `src/seed.ts`, `SeedImpl.negotiate`)

The DH material is abstracted: `P` are curve points, `K` ephemeral
scalars, `smul` scalar multiplication (`computeDH`) with base point `G`
(`toECPubKey`), and `xC` the X-coordinate serialization pushed onto the
seed list. JavaScript objects keyed by step numbers are association lists
kept sorted by key, matching the ascending integer-key enumeration order
of JavaScript objects. -/

/-- Lookup in a step-indexed epk map (`epk[c]`). -/
def lookupE {P : Type} (l : List (Nat × P)) (c : Nat) : Option P :=
  (l.find? fun p => p.1 == c).map Prod.snd

/-- Sorted insert (`epk[c] = pk`), replacing an existing key. -/
def insertE {P : Type} : List (Nat × P) → Nat → P → List (Nat × P)
  | [], c, v => [(c, v)]
  | p :: rest, c, v =>
    if c < p.1 then (c, v) :: p :: rest
    else if c = p.1 then (c, v) :: rest
    else p :: insertE rest c v

/-- The keys of an epk map (`Object.keys`). -/
def keysE {P : Type} (l : List (Nat × P)) : List Nat :=
  l.map Prod.fst

/-- `Object.assign(target, src)`. -/
def mergeE {P : Type} (old new_ : List (Nat × P)) : List (Nat × P) :=
  new_.foldl (fun acc kv => insertE acc kv.1 kv.2) old

/-- One iteration of the DH loop over the partner map: forward the DH
result at steps below `devNum - 2` unless already in `mine`, and push the
final-hop X coordinate as a new seed. -/
def negoStep {X K P : Type} (smul : K → P → P) (xC : P → X) (devNum : Nat) (sk : K)
    (mine : List (Nat × P)) (acc : List (Nat × P) × List X) (kv : Nat × P) :
    List (Nat × P) × List X :=
  if kv.1 < devNum - 2 then
    if (lookupE mine (kv.1 + 1)).isNone then
      (insertE acc.1 (kv.1 + 1) (smul sk kv.2), acc.2)
    else acc
  else (acc.1, acc.2 ++ [xC (smul sk kv.2)])

/-- The body of `negotiate` once the ephemeral record `e0` is in place. -/
def negotiateCore {X K P : Type} (smul : K → P → P) (G : P) (xC : P → X)
    (meta : Meta) (epk : Option (List (Nat × P) × List (Nat × P))) (e0 : Eph K)
    (st : SeedSt X K) : Bool × List (Nat × P) × SeedSt X K :=
  let sk := e0.sk
  let ans0 : List (Nat × P) := [(0, smul sk G)]
  match epk with
  | none => (false, ans0, st)
  | some (mine, partner) =>
    let fr := partner.foldl (negoStep smul xC meta.devNum sk mine) (ans0, [])
    let seeds2 := st.seeds ++ fr.2
    let computed := keysE fr.1 ++ keysE mine
      ++ (if seeds2.length = e0.idx + 1 then [meta.devNum - 1] else [])
    let done := computed.dedup.length == meta.devNum
    (done, fr.1, ⟨seeds2, if done then none else some e0⟩)

/-- `SeedImpl.negotiate`: state checks, ephemeral-record handling, the DH
loop and the completion test. `freshSk` stands for the `ECPrivKey.gen()`
call used when no ephemeral record exists yet. -/
def negotiate {X K P : Type} (smul : K → P → P) (G : P) (xC : P → X) (meta : Meta)
    (epk : Option (List (Nat × P) × List (Nat × P))) (update : Bool) (freshSk : K)
    (st : SeedSt X K) : Except SeedErr (Bool × List (Nat × P) × SeedSt X K) :=
  if (update && st.seeds.length == 0) || (!update && st.seeds.length != 0) then
    .error .invalidState
  else
    match st.e with
    | some e0 =>
      if e0.meta = meta then .ok (negotiateCore smul G xC meta epk e0 st)
      else .error .metaMismatch
    | none =>
      let e0 : Eph K := ⟨meta, freshSk, st.seeds.length⟩
      .ok (negotiateCore smul G xC meta epk e0 { st with e := some e0 })

/-! ### The ring driver of the claim: devices 0..N-1, device i consuming
the published map of device (i-1) mod N, stepped in ring order until every
device reports completion (two rounds suffice). -/

/-- One device of the driver: its Seed plus the `mine` / `partner`
accumulators and the latest published map of `Device.seedNegotiating`. -/
structure DevState (X K P : Type) where
  seed : SeedSt X K
  mine : List (Nat × P)
  partner : List (Nat × P)
  published : List (Nat × P)
  active : Bool

/-- The constant meta data of device `i` in a ring of `N`. -/
def metaOf (N i : Nat) : Meta :=
  ⟨toString i, toString ((i + N - 1) % N), N⟩

/-- `initSeedNegotiation`: the first `negotiate` call with no epk, whose
returned map is the first published message. -/
def initDev {X K P : Type} (smul : K → P → P) (G : P) (xC : P → X) (N : Nat)
    (k : Nat → K) (i : Nat) : DevState X K P :=
  match negotiate smul G xC (metaOf N i) none false (k i) ⟨[], none⟩ with
  | .ok r => ⟨r.2.2, [], [], r.2.1, !r.1⟩
  | .error _ => ⟨⟨[], none⟩, [], [], [], false⟩

/-- One `seedNegotiating` step of device `i`: merge the partner's latest
published map, negotiate, merge the answer into `mine` and publish it.
Completed devices are not called again. -/
def devStep {X K P : Type} (smul : K → P → P) (G : P) (xC : P → X) (N : Nat)
    (k : Nat → K) (sys : Nat → DevState X K P) (i : Nat) : DevState X K P :=
  let d := sys i
  if !d.active then d
  else
    let partner1 := mergeE d.partner (sys ((i + N - 1) % N)).published
    match negotiate smul G xC (metaOf N i) (some (d.mine, partner1)) false (k i) d.seed with
    | .ok r =>
      let mine1 := mergeE d.mine r.2.1
      ⟨r.2.2, mine1, partner1, mine1, !r.1⟩
    | .error _ => d

/-- Replace one device of the system. -/
def updAt {X K P : Type} (sys : Nat → DevState X K P) (i : Nat)
    (d : DevState X K P) : Nat → DevState X K P :=
  fun j => if j = i then d else sys j

/-- One round: step the devices in ring order 0, 1, …, N-1, each seeing
its partner's latest published map. -/
def runRound {X K P : Type} (smul : K → P → P) (G : P) (xC : P → X) (N : Nat)
    (k : Nat → K) (sys : Nat → DevState X K P) : Nat → DevState X K P :=
  (List.range N).foldl (fun s i => updAt s i (devStep smul G xC N k s i)) sys

/-- The driver: initialize every device, then run two rounds. -/
def ringDriver {X K P : Type} (smul : K → P → P) (G : P) (xC : P → X) (N : Nat)
    (k : Nat → K) : Nat → DevState X K P :=
  runRound smul G xC N k (runRound smul G xC N k (fun i => initDev smul G xC N k i))

/-! ### The intended values: products of ring-consecutive scalars -/

section RingValues

variable {X K P : Type} [CommMonoid K]

/-- The scalar accumulated by device `j` after `c` hops: the product of
the `c + 1` scalars of devices `j, j-1, …, j-c` around the ring. -/
def sVal (N : Nat) (k : Nat → K) (j c : Nat) : K :=
  ∏ t ∈ Finset.range (c + 1), k ((j + N - t) % N)

/-- The point device `j` holds after `c` hops. -/
def pnt (smul : K → P → P) (G : P) (N : Nat) (k : Nat → K) (j c : Nat) : P :=
  smul (sVal N k j c) G

theorem sVal_zero (N : Nat) (k : Nat → K) (j : Nat) (hj : j < N) :
    sVal N k j 0 = k j := by
  unfold sVal
  rw [Finset.prod_range_one]
  rw [Nat.sub_zero, Nat.add_mod_right, Nat.mod_eq_of_lt hj]

theorem pred_index_step (N j t : Nat) (hN : 0 < N) (ht : t + 1 ≤ N) :
    ((j + N - 1) % N + N - t) % N = (j + N - (t + 1)) % N := by
  have h1 : (j + N - 1) % N + N - t = (j + N - 1) % N + (N - t) := by omega
  rw [h1, Nat.mod_add_mod]
  have h2 : j + N - 1 + (N - t) = (j + N - (t + 1)) + N := by omega
  rw [h2, Nat.add_mod_right]

theorem sVal_succ (N : Nat) (k : Nat → K) (j c : Nat) (hN : 0 < N) (hj : j < N)
    (hc : c + 1 ≤ N) :
    sVal N k j (c + 1) = k j * sVal N k ((j + N - 1) % N) c := by
  unfold sVal
  rw [Finset.prod_range_succ']
  have h0 : (j + N - 0) % N = j := by
    rw [Nat.sub_zero, Nat.add_mod_right, Nat.mod_eq_of_lt hj]
  rw [h0]
  rw [mul_comm]
  congr 1
  refine Finset.prod_congr rfl ?_
  intro t ht
  rw [Finset.mem_range] at ht
  rw [pred_index_step N j t hN (by omega)]

theorem pnt_step (smul : K → P → P) (G : P) (N : Nat) (k : Nat → K) (j c : Nat)
    (hact : ∀ a b p, smul a (smul b p) = smul (a * b) p)
    (hN : 0 < N) (hj : j < N) (hc : c + 1 ≤ N) :
    smul (k j) (pnt smul G N k ((j + N - 1) % N) c) = pnt smul G N k j (c + 1) := by
  unfold pnt
  rw [hact, ← sVal_succ N k j c hN hj hc]

/-- The ring involution `t ↦ (j + N - t) % N` on `range N`. -/
theorem ring_invol (N j t : Nat) (hN : 0 < N) (hj : j < N) (ht : t < N) :
    (j + N - (j + N - t) % N) % N = t := by
  by_cases hc : j < t
  · have h1 : (j + N - t) % N = j + N - t := by
      apply Nat.mod_eq_of_lt
      omega
    rw [h1]
    have h2 : j + N - (j + N - t) = t := by omega
    rw [h2, Nat.mod_eq_of_lt ht]
  · have hle : N ≤ j + N - t := by omega
    have hlt : j + N - t - N < N := by omega
    have h1 : (j + N - t) % N = j - t := by
      rw [Nat.mod_eq_sub_mod hle, Nat.mod_eq_of_lt (by omega)]
      omega
    rw [h1]
    have h2 : j + N - (j - t) = t + N := by omega
    rw [h2, Nat.add_mod_right, Nat.mod_eq_of_lt ht]

theorem sVal_total (N : Nat) (k : Nat → K) (j : Nat) (hN : 0 < N) (hj : j < N) :
    sVal N k j (N - 1) = ∏ t ∈ Finset.range N, k t := by
  unfold sVal
  have hN1 : N - 1 + 1 = N := by omega
  rw [hN1]
  refine Finset.prod_bij' (fun t _ => (j + N - t) % N) (fun t _ => (j + N - t) % N)
    ?_ ?_ ?_ ?_ ?_
  · intro t ht
    rw [Finset.mem_range] at ht ⊢
    exact Nat.mod_lt _ hN
  · intro t ht
    rw [Finset.mem_range] at ht ⊢
    exact Nat.mod_lt _ hN
  · intro t ht
    rw [Finset.mem_range] at ht
    exact ring_invol N j t hN hj ht
  · intro t ht
    rw [Finset.mem_range] at ht
    exact ring_invol N j t hN hj ht
  · intro t ht
    rfl

end RingValues

/-! ### Standard epk maps: contiguous key ranges with their ring values -/

section StdMaps

variable {P : Type}

/-- The epk map with keys `lo, …, lo+len-1` and values given by `pfun`. -/
def stdFrom (pfun : Nat → P) (lo len : Nat) : List (Nat × P) :=
  (List.range' lo len).map fun c => (c, pfun c)

theorem stdFrom_zero (pfun : Nat → P) (lo : Nat) : stdFrom pfun lo 0 = [] := rfl

theorem stdFrom_succ (pfun : Nat → P) (lo len : Nat) :
    stdFrom pfun lo (len + 1) = (lo, pfun lo) :: stdFrom pfun (lo + 1) len := by
  unfold stdFrom
  rw [List.range'_succ]
  rfl

theorem stdFrom_concat (pfun : Nat → P) (lo len : Nat) :
    stdFrom pfun lo (len + 1) = stdFrom pfun lo len ++ [(lo + len, pfun (lo + len))] := by
  unfold stdFrom
  rw [List.range'_concat]
  rw [List.map_append]
  simp

theorem stdFrom_split (pfun : Nat → P) (lo m n : Nat) :
    stdFrom pfun lo (m + n) = stdFrom pfun lo m ++ stdFrom pfun (lo + m) n := by
  unfold stdFrom
  rw [← List.map_append]
  congr 1
  rw [Nat.add_comm m n]
  simpa using (List.range'_append lo m n 1).symm

theorem keysE_stdFrom (pfun : Nat → P) (lo len : Nat) :
    keysE (stdFrom pfun lo len) = List.range' lo len := by
  unfold keysE stdFrom
  rw [List.map_map]
  have hid : (Prod.fst ∘ fun c => ((c, pfun c) : Nat × P)) = id := rfl
  rw [hid, List.map_id]

theorem lookupE_stdFrom (pfun : Nat → P) (len : Nat) :
    ∀ (lo c : Nat), lookupE (stdFrom pfun lo len) c
      = if lo ≤ c ∧ c < lo + len then some (pfun c) else none := by
  induction len with
  | zero =>
    intro lo c
    rw [if_neg (by omega)]
    rfl
  | succ len ih =>
    intro lo c
    rw [stdFrom_succ]
    unfold lookupE
    by_cases hc : lo = c
    · subst hc
      rw [if_pos (by omega)]
      simp [List.find?]
    · have hbeq : (lo == c) = false := by
        simp [hc]
      unfold lookupE at ih
      simp only [List.find?, hbeq]
      rw [ih (lo + 1) c]
      by_cases hin : lo ≤ c ∧ c < lo + (len + 1)
      · rw [if_pos (by omega), if_pos hin]
      · rw [if_neg (by omega), if_neg hin]

theorem insertE_existing (pfun : Nat → P) (len : Nat) :
    ∀ (lo c : Nat), lo ≤ c → c < lo + len →
      insertE (stdFrom pfun lo len) c (pfun c) = stdFrom pfun lo len := by
  induction len with
  | zero => intro lo c h1 h2; omega
  | succ len ih =>
    intro lo c h1 h2
    rw [stdFrom_succ]
    unfold insertE
    rw [if_neg (by omega)]
    by_cases hc : c = lo
    · rw [if_pos hc]
      rw [hc]
    · rw [if_neg hc]
      rw [ih (lo + 1) c (by omega) (by omega)]

theorem insertE_append_std (pfun : Nat → P) (len : Nat) :
    ∀ (lo c : Nat) (v : P), lo + len ≤ c →
      insertE (stdFrom pfun lo len) c v = stdFrom pfun lo len ++ [(c, v)] := by
  induction len with
  | zero => intro lo c v h; rfl
  | succ len ih =>
    intro lo c v h
    rw [stdFrom_succ]
    unfold insertE
    rw [if_neg (by omega), if_neg (by omega)]
    rw [ih (lo + 1) c v (by omega)]
    rfl

theorem insertE_cons_pos {c : Nat} (v0 v : P) (tail : List (Nat × P)) (hc : 0 < c) :
    insertE ((0, v0) :: tail) c v = (0, v0) :: insertE tail c v := by
  cases tail with
  | nil =>
    unfold insertE
    rw [if_neg (by omega), if_neg (by omega)]
    rfl
  | cons p rest =>
    unfold insertE
    rw [if_neg (by omega), if_neg (by omega)]
    rfl

theorem mergeE_nil {P : Type} (old : List (Nat × P)) : mergeE old [] = old := rfl

theorem mergeE_cons {P : Type} (old : List (Nat × P)) (c : Nat) (v : P)
    (rest : List (Nat × P)) :
    mergeE old ((c, v) :: rest) = mergeE (insertE old c v) rest := rfl

theorem mergeE_std (pfun : Nat → P) (len : Nat) :
    ∀ (lo n0 : Nat), lo ≤ n0 →
      mergeE (stdFrom pfun 0 n0) (stdFrom pfun lo len)
        = stdFrom pfun 0 (max n0 (lo + len)) := by
  induction len with
  | zero =>
    intro lo n0 h
    rw [stdFrom_zero, mergeE_nil]
    congr 1
    omega
  | succ len ih =>
    intro lo n0 h
    rw [stdFrom_succ, mergeE_cons]
    by_cases hlo : lo < n0
    · rw [insertE_existing pfun n0 0 lo (by omega) (by omega)]
      rw [ih (lo + 1) n0 (by omega)]
      congr 1
      omega
    · have heq : lo = n0 := by omega
      subst heq
      rw [insertE_append_std pfun lo 0 lo (pfun lo) (by omega)]
      have hconcat : stdFrom pfun 0 lo ++ [(lo, pfun lo)] = stdFrom pfun 0 (lo + 1) := by
        rw [stdFrom_concat]
        simp
      rw [hconcat]
      rw [ih (lo + 1) (lo + 1) (by omega)]
      congr 1
      omega

end StdMaps

/-! ### Evaluating the DH fold on standard maps -/

/-- The ring predecessor (the device whose map device `i` consumes). -/
def prIdx (N i : Nat) : Nat := (i + N - 1) % N

theorem prIdx_eq (N i : Nat) (hN : 0 < N) (hi : i < N) :
    prIdx N i = if i = 0 then N - 1 else i - 1 := by
  unfold prIdx
  by_cases h0 : i = 0
  · subst h0
    rw [if_pos rfl]
    have : 0 + N - 1 = N - 1 := by omega
    rw [this, Nat.mod_eq_of_lt (by omega)]
  · rw [if_neg h0]
    have : i + N - 1 = (i - 1) + N := by omega
    rw [this, Nat.add_mod_right, Nat.mod_eq_of_lt (by omega)]

section FoldLemmas

variable {X K P : Type} [CommMonoid K]
variable (smul : K → P → P) (G : P) (xC : P → X) (N : Nat) (k : Nat → K)

/-- The start accumulator `ans = .. 0: pub(sk) ..` is the length-1 map. -/
theorem ans0_eq_std (j : Nat) (hj : j < N) :
    [(0, smul (k j) G)] = stdFrom (pnt smul G N k j) 0 1 := by
  rw [stdFrom_succ, stdFrom_zero]
  unfold pnt
  rw [sVal_zero N k j hj]

theorem stdFrom_snoc {Q : Type} (pfun : Nat → Q) (m : Nat) :
    stdFrom pfun 0 m ++ [(m, pfun m)] = stdFrom pfun 0 (m + 1) := by
  have h := stdFrom_concat pfun 0 m
  simp only [Nat.zero_add] at h
  exact h.symm

theorem pnt_step_pr (hact : ∀ a b p, smul a (smul b p) = smul (a * b) p)
    (j c : Nat) (hN : 0 < N) (hj : j < N) (hc : c + 1 ≤ N) :
    smul (k j) (pnt smul G N k (prIdx N j) c) = pnt smul G N k j (c + 1) := by
  unfold prIdx
  exact pnt_step smul G N k j c hact hN hj hc

theorem negoStep_insert (sk : K) (mine : List (Nat × P))
    (acc : List (Nat × P) × List X) (c : Nat) (pk : P) (hc : c < N - 2)
    (hlk : (lookupE mine (c + 1)).isNone = true) :
    negoStep smul xC N sk mine acc (c, pk)
      = (insertE acc.1 (c + 1) (smul sk pk), acc.2) := by
  unfold negoStep
  rw [if_pos hc, if_pos hlk]

theorem negoStep_skip (sk : K) (mine : List (Nat × P))
    (acc : List (Nat × P) × List X) (c : Nat) (pk : P) (hc : c < N - 2)
    (hlk : (lookupE mine (c + 1)).isNone = false) :
    negoStep smul xC N sk mine acc (c, pk) = acc := by
  unfold negoStep
  rw [if_pos hc, if_neg (by rw [hlk]; exact Bool.false_ne_true)]

theorem negoStep_push (sk : K) (mine : List (Nat × P))
    (acc : List (Nat × P) × List X) (c : Nat) (pk : P) (hc : ¬ c < N - 2) :
    negoStep smul xC N sk mine acc (c, pk)
      = (acc.1, acc.2 ++ [xC (smul sk pk)]) := by
  unfold negoStep
  rw [if_neg hc]

/-- Steps strictly below the final hop, with nothing yet in `mine`: the
answers extend the contiguous map one key at a time. -/
theorem fold_r1 (hact : ∀ a b p, smul a (smul b p) = smul (a * b) p)
    (j : Nat) (hj : j < N) :
    ∀ m, m + 1 ≤ N - 2 →
      (stdFrom (pnt smul G N k (prIdx N j)) 0 (m + 1)).foldl
        (negoStep smul xC N (k j) []) ([(0, pnt smul G N k j 0)], [])
      = (stdFrom (pnt smul G N k j) 0 (m + 2), []) := by
  intro m
  induction m with
  | zero =>
    intro hm
    rw [stdFrom_succ, stdFrom_zero]
    simp only [List.foldl_cons, List.foldl_nil]
    rw [negoStep_insert smul xC N (k j) [] _ 0 _ (by omega) rfl]
    rw [pnt_step_pr smul G N k hact j 0 (by omega) hj (by omega)]
    rfl
  | succ m ih =>
    intro hm
    rw [show m + 1 + 1 = (m + 1) + 1 from rfl]
    rw [stdFrom_concat, List.foldl_append]
    rw [ih (by omega)]
    simp only [List.foldl_cons, List.foldl_nil, Nat.zero_add]
    rw [negoStep_insert smul xC N (k j) [] _ (m + 1) _ (by omega) rfl]
    rw [pnt_step_pr smul G N k hact j (m + 1) (by omega) hj (by omega)]
    dsimp only
    rw [insertE_append_std (pnt smul G N k j) (m + 2) 0 (m + 1 + 1)
      (pnt smul G N k j (m + 2)) (by omega)]
    rw [show (m + 1 + 1 : Nat) = m + 2 from rfl, stdFrom_snoc]

/-- The whole round-1 fold: with `mine` empty and a full partner map, the
answers cover all steps below the final hop and one seed is pushed. -/
theorem fold_r1_total (hact : ∀ a b p, smul a (smul b p) = smul (a * b) p)
    (j : Nat) (hj : j < N) (hN : 2 ≤ N) :
    (stdFrom (pnt smul G N k (prIdx N j)) 0 (N - 1)).foldl
      (negoStep smul xC N (k j) []) ([(0, pnt smul G N k j 0)], [])
    = (stdFrom (pnt smul G N k j) 0 (N - 1), [xC (pnt smul G N k j (N - 1))]) := by
  have hsplit : N - 1 = (N - 2) + 1 := by omega
  rw [hsplit, stdFrom_concat, List.foldl_append]
  have hpush : ∀ acc : List (Nat × P) × List X,
      negoStep smul xC N (k j) [] acc
        (0 + (N - 2), pnt smul G N k (prIdx N j) (0 + (N - 2)))
      = (acc.1, acc.2 ++ [xC (pnt smul G N k j (N - 1))]) := by
    intro acc
    rw [negoStep_push smul xC N (k j) [] acc _ _ (by omega)]
    rw [show (0 + (N - 2)) = N - 2 from by omega]
    have := pnt_step_pr smul G N k hact j (N - 2) (by omega) hj (by omega)
    rw [show N - 2 + 1 = N - 1 from by omega] at this
    rw [this]
  rcases Nat.lt_or_ge N 3 with h3 | h3
  · have h2 : N = 2 := by omega
    subst h2
    have hp := hpush ([(0, pnt smul G 2 k j 0)], [])
    norm_num at hp ⊢
    simp only [stdFrom_zero, List.foldl_nil, List.foldl_cons]
    rw [hp]
    rfl
  · have hm : N - 2 = (N - 3) + 1 := by omega
    rw [hm]
    rw [fold_r1 smul G xC N k hact j hj (N - 3) (by omega)]
    simp only [List.foldl_cons, List.foldl_nil]
    rw [show (N - 3) + 1 = N - 2 from by omega]
    rw [hpush (stdFrom (pnt smul G N k j) 0 ((N - 3) + 2), [])]
    rw [show (N - 3) + 2 = N - 1 from by omega, show N - 2 + 1 = N - 1 from by omega]
    rfl

theorem pnt_zero (j : Nat) (hj : j < N) : pnt smul G N k j 0 = smul (k j) G := by
  unfold pnt
  rw [sVal_zero N k j hj]

theorem keysE_nil {Q : Type} : keysE ([] : List (Nat × Q)) = [] := rfl

theorem keysE_cons {Q : Type} (c : Nat) (v : Q) (l : List (Nat × Q)) :
    keysE ((c, v) :: l) = c :: keysE l := rfl

theorem devNum_metaOf (N i : Nat) : (metaOf N i).devNum = N := rfl

theorem mergeE_nil_std {Q : Type} (pfun : Nat → Q) (len : Nat) :
    mergeE ([] : List (Nat × Q)) (stdFrom pfun 0 len) = stdFrom pfun 0 len := by
  have h := mergeE_std pfun len 0 0 (by omega)
  rw [stdFrom_zero] at h
  rw [h]
  congr 1
  omega

theorem mergeE_r2 {Q : Type} (pfun : Nat → Q) (j m : Nat) :
    mergeE (stdFrom pfun 0 (j + 2)) ((0, pfun 0) :: stdFrom pfun (j + 2) m)
      = stdFrom pfun 0 (max (j + 2) (j + 2 + m)) := by
  rw [mergeE_cons]
  rw [insertE_existing pfun (j + 2) 0 0 (by omega) (by omega)]
  exact mergeE_std pfun m (j + 2) (j + 2) (by omega)

theorem dedup_beq_mid (j M : Nat) (hj3 : j + 3 ≤ M) :
    (((List.range' 0 (j + 2)).dedup.length : Nat) == M) = false := by
  rw [List.Nodup.dedup (List.nodup_range' 0 (j + 2)), List.length_range']
  exact beq_eq_false_iff_ne.mpr (by omega)

theorem dedup_beq_fin (M : Nat) (hM : 2 ≤ M) :
    (((List.range' 0 (M - 1) ++ [M - 1]).dedup.length : Nat) == M) = true := by
  have hcard : (List.range' 0 (M - 1) ++ [M - 1]).toFinset = Finset.range M := by
    ext x
    simp [List.mem_range'_1]
    omega
  have h1 : ((List.range' 0 (M - 1) ++ [M - 1]).dedup.length : Nat) = M := by
    rw [← List.card_toFinset, hcard, Finset.card_range]
  rw [h1]
  exact beq_self_eq_true M

theorem dedup_beq_r2 (j M : Nat) (hj3 : j + 3 ≤ M) :
    (((((0 :: List.range' (j + 2) (M - 3 - j)) ++ List.range' 0 (j + 2)) ++ [M - 1]).dedup.length
      : Nat) == M) = true := by
  have hcard : (((0 :: List.range' (j + 2) (M - 3 - j)) ++ List.range' 0 (j + 2))
      ++ [M - 1]).toFinset = Finset.range M := by
    ext x
    simp [List.mem_range'_1]
    omega
  have h1 : ((((0 :: List.range' (j + 2) (M - 3 - j)) ++ List.range' 0 (j + 2))
      ++ [M - 1]).dedup.length : Nat) = M := by
    rw [← List.card_toFinset, hcard, Finset.card_range]
  rw [h1]
  exact beq_self_eq_true M

/-- Round-2 skip run: every step whose successor key is already in `mine`
leaves the accumulator unchanged. -/
theorem fold_skip (j : Nat) (hj1 : j + 1 ≤ N - 2) (pfun : Nat → P) :
    ∀ (len lo : Nat) (acc : List (Nat × P) × List X), lo + len ≤ j + 1 →
      (stdFrom pfun lo len).foldl
        (negoStep smul xC N (k j) (stdFrom (pnt smul G N k j) 0 (j + 2))) acc
      = acc := by
  intro len
  induction len with
  | zero =>
    intro lo acc h
    rw [stdFrom_zero]
    rfl
  | succ len ih =>
    intro lo acc h
    rw [stdFrom_succ pfun lo len, List.foldl_cons]
    have hlk : (lookupE (stdFrom (pnt smul G N k j) 0 (j + 2)) (lo + 1)).isNone = false := by
      rw [lookupE_stdFrom (pnt smul G N k j) (j + 2) 0 (lo + 1), if_pos (by omega)]
      rfl
    rw [negoStep_skip smul xC N (k j) _ acc lo (pfun lo) (by omega) hlk]
    exact ih (lo + 1) acc (by omega)

/-- Round-2 insert run: keys from `j + 1` up extend the answers at `j + 2` up. -/
theorem fold_r2_ins (hact : ∀ a b p, smul a (smul b p) = smul (a * b) p)
    (j : Nat) (hj : j < N) :
    ∀ m, j + 1 + m ≤ N - 2 →
      (stdFrom (pnt smul G N k (prIdx N j)) (j + 1) m).foldl
        (negoStep smul xC N (k j) (stdFrom (pnt smul G N k j) 0 (j + 2)))
        ([(0, pnt smul G N k j 0)], [])
      = ((0, pnt smul G N k j 0) :: stdFrom (pnt smul G N k j) (j + 2) m, []) := by
  intro m
  induction m with
  | zero =>
    intro hm
    simp only [stdFrom_zero]
    rfl
  | succ m ih =>
    intro hm
    rw [stdFrom_concat (pnt smul G N k (prIdx N j)) (j + 1) m, List.foldl_append,
      ih (by omega)]
    simp only [List.foldl_cons, List.foldl_nil]
    have hlk : (lookupE (stdFrom (pnt smul G N k j) 0 (j + 2)) (j + 1 + m + 1)).isNone
        = true := by
      rw [lookupE_stdFrom (pnt smul G N k j) (j + 2) 0 (j + 1 + m + 1), if_neg (by omega)]
      rfl
    rw [negoStep_insert smul xC N (k j) _ _ (j + 1 + m) _ (by omega) hlk]
    dsimp only
    rw [pnt_step_pr smul G N k hact j (j + 1 + m) (by omega) hj (by omega)]
    rw [insertE_cons_pos _ _ _ (by omega)]
    rw [show j + 1 + m + 1 = j + 2 + m from by omega]
    rw [insertE_append_std (pnt smul G N k j) m (j + 2) (j + 2 + m) _ (by omega)]
    rw [← stdFrom_concat]

/-- The whole round-2 fold for a device that still had `j + 2` answers. -/
theorem fold_r2_total (hact : ∀ a b p, smul a (smul b p) = smul (a * b) p)
    (j : Nat) (hj3 : j + 3 ≤ N) :
    (stdFrom (pnt smul G N k (prIdx N j)) 0 (N - 1)).foldl
      (negoStep smul xC N (k j) (stdFrom (pnt smul G N k j) 0 (j + 2)))
      ([(0, pnt smul G N k j 0)], [])
    = ((0, pnt smul G N k j 0) :: stdFrom (pnt smul G N k j) (j + 2) (N - 3 - j),
       [xC (pnt smul G N k j (N - 1))]) := by
  rw [show stdFrom (pnt smul G N k (prIdx N j)) 0 (N - 1)
      = stdFrom (pnt smul G N k (prIdx N j)) 0 ((j + 1) + ((N - 3 - j) + 1)) from by
    rw [show (j + 1) + ((N - 3 - j) + 1) = N - 1 from by omega]]
  rw [stdFrom_split (pnt smul G N k (prIdx N j)) 0 (j + 1) ((N - 3 - j) + 1),
    List.foldl_append]
  simp only [Nat.zero_add]
  rw [fold_skip smul G xC N k j (by omega) (pnt smul G N k (prIdx N j)) (j + 1) 0
    ([(0, pnt smul G N k j 0)], []) (by omega)]
  rw [stdFrom_concat (pnt smul G N k (prIdx N j)) (j + 1) (N - 3 - j), List.foldl_append]
  rw [fold_r2_ins smul G xC N k hact j (by omega) (N - 3 - j) (by omega)]
  simp only [List.foldl_cons, List.foldl_nil]
  rw [show j + 1 + (N - 3 - j) = N - 2 from by omega]
  rw [negoStep_push smul xC N (k j) _ _ (N - 2) _ (by omega)]
  have hstep := pnt_step_pr smul G N k hact j (N - 2) (by omega) (by omega) (by omega)
  rw [show N - 2 + 1 = N - 1 from by omega] at hstep
  rw [hstep]
  rfl

end FoldLemmas

/-! ### The three device states reached by the driver -/

/-- A freshly initialized device: one published key, no answers yet. -/
def devI {X K P : Type} [CommMonoid K] (smul : K → P → P) (G : P) (xC : P → X)
    (N : Nat) (k : Nat → K) (j : Nat) : DevState X K P :=
  ⟨⟨[], some ⟨metaOf N j, k j, 0⟩⟩, [], [],
   stdFrom (pnt smul G N k j) 0 1, true⟩

/-- Device `j` after its round-1 step when the ring is still too short to
finish: `j + 2` forwarded answers, partner map of size `j + 1`. -/
def devM {X K P : Type} [CommMonoid K] (smul : K → P → P) (G : P) (xC : P → X)
    (N : Nat) (k : Nat → K) (j : Nat) : DevState X K P :=
  ⟨⟨[], some ⟨metaOf N j, k j, 0⟩⟩,
   stdFrom (pnt smul G N k j) 0 (j + 2),
   stdFrom (pnt smul G N k (prIdx N j)) 0 (j + 1),
   stdFrom (pnt smul G N k j) 0 (j + 2), true⟩

/-- A completed device: the negotiated seed is the X coordinate of the full
ring product, and the ephemeral record is dropped. -/
def devD {X K P : Type} [CommMonoid K] (smul : K → P → P) (G : P) (xC : P → X)
    (N : Nat) (k : Nat → K) (j : Nat) : DevState X K P :=
  ⟨⟨[xC (pnt smul G N k j (N - 1))], none⟩,
   stdFrom (pnt smul G N k j) 0 (N - 1),
   stdFrom (pnt smul G N k (prIdx N j)) 0 (N - 1),
   stdFrom (pnt smul G N k j) 0 (N - 1), false⟩

section DriverEval

variable {X K P : Type} [CommMonoid K]
variable (smul : K → P → P) (G : P) (xC : P → X) (N : Nat) (k : Nat → K)

/-- `negotiate` on a seedless state whose ephemeral record matches the call
meta runs the core body. -/
theorem negotiate_fresh_eval (meta : Meta) (mp : List (Nat × P) × List (Nat × P))
    (sk : K) :
    negotiate smul G xC meta (some mp) false sk ⟨[], some ⟨meta, sk, 0⟩⟩
    = .ok (negotiateCore smul G xC meta (some mp) ⟨meta, sk, 0⟩
        ⟨[], some ⟨meta, sk, 0⟩⟩) := by
  unfold negotiate
  dsimp only
  rw [if_pos rfl]
  rfl

/-- `initSeedNegotiation` evaluated: ephemeral record stored, the singleton
map published, device still active. -/
theorem initDev_eval (j : Nat) (hj : j < N) :
    initDev smul G xC N k j = devI smul G xC N k j := by
  have h : initDev smul G xC N k j
      = ⟨⟨[], some ⟨metaOf N j, k j, 0⟩⟩, [], [], [(0, smul (k j) G)], true⟩ := rfl
  rw [h]
  unfold devI
  rw [ans0_eq_std smul G N k j hj]

/-- Round-1 core evaluation for a device too early in the ring to finish. -/
theorem core_r1_mid (hact : ∀ a b p, smul a (smul b p) = smul (a * b) p)
    (j : Nat) (hj3 : j + 3 ≤ N) :
    negotiateCore smul G xC (metaOf N j)
      (some ([], stdFrom (pnt smul G N k (prIdx N j)) 0 (j + 1)))
      ⟨metaOf N j, k j, 0⟩ ⟨[], some ⟨metaOf N j, k j, 0⟩⟩
    = (false, stdFrom (pnt smul G N k j) 0 (j + 2),
       ⟨[], some ⟨metaOf N j, k j, 0⟩⟩) := by
  unfold negotiateCore
  dsimp only [devNum_metaOf]
  rw [show smul (k j) G = pnt smul G N k j 0 from (pnt_zero smul G N k j (by omega)).symm]
  rw [fold_r1 smul G xC N k hact j (by omega) j (by omega)]
  dsimp only
  rw [if_neg (show ¬ List.length (([] : List X) ++ ([] : List X)) = 0 + 1 from by simp)]
  rw [keysE_stdFrom, keysE_nil, List.append_nil, List.append_nil]
  rw [dedup_beq_mid j N hj3]
  rfl

/-- Round-1 core evaluation for the last two devices of the ring: they see a
full partner map at once and complete immediately. -/
theorem core_r1_fin (hact : ∀ a b p, smul a (smul b p) = smul (a * b) p)
    (j : Nat) (hj : j < N) (hN : 2 ≤ N) (hj2 : N ≤ j + 2) :
    negotiateCore smul G xC (metaOf N j)
      (some ([], stdFrom (pnt smul G N k (prIdx N j)) 0 (N - 1)))
      ⟨metaOf N j, k j, 0⟩ ⟨[], some ⟨metaOf N j, k j, 0⟩⟩
    = (true, stdFrom (pnt smul G N k j) 0 (N - 1),
       ⟨[xC (pnt smul G N k j (N - 1))], none⟩) := by
  unfold negotiateCore
  dsimp only [devNum_metaOf]
  rw [show smul (k j) G = pnt smul G N k j 0 from (pnt_zero smul G N k j hj).symm]
  rw [fold_r1_total smul G xC N k hact j hj hN]
  dsimp only
  rw [if_pos (show List.length (([] : List X) ++ [xC (pnt smul G N k j (N - 1))])
      = 0 + 1 from rfl)]
  rw [keysE_stdFrom, keysE_nil, List.append_nil]
  rw [dedup_beq_fin N hN]
  rfl

/-- Round-2 core evaluation: the skip/insert/push fold completes the device. -/
theorem core_r2 (hact : ∀ a b p, smul a (smul b p) = smul (a * b) p)
    (j : Nat) (hj3 : j + 3 ≤ N) :
    negotiateCore smul G xC (metaOf N j)
      (some (stdFrom (pnt smul G N k j) 0 (j + 2),
        stdFrom (pnt smul G N k (prIdx N j)) 0 (N - 1)))
      ⟨metaOf N j, k j, 0⟩ ⟨[], some ⟨metaOf N j, k j, 0⟩⟩
    = (true, (0, pnt smul G N k j 0) :: stdFrom (pnt smul G N k j) (j + 2) (N - 3 - j),
       ⟨[xC (pnt smul G N k j (N - 1))], none⟩) := by
  unfold negotiateCore
  dsimp only [devNum_metaOf]
  rw [show smul (k j) G = pnt smul G N k j 0 from (pnt_zero smul G N k j (by omega)).symm]
  rw [fold_r2_total smul G xC N k hact j hj3]
  dsimp only
  rw [if_pos (show List.length (([] : List X) ++ [xC (pnt smul G N k j (N - 1))])
      = 0 + 1 from rfl)]
  rw [keysE_cons, keysE_stdFrom, keysE_stdFrom]
  rw [dedup_beq_r2 j N hj3]
  rfl

end DriverEval

section DriverStep

variable {X K P : Type} [CommMonoid K]
variable (smul : K → P → P) (G : P) (xC : P → X) (N : Nat) (k : Nat → K)

/-- Completed devices are not stepped again. -/
theorem devStep_inactive (sys : Nat → DevState X K P) (j : Nat)
    (h : (sys j).active = false) :
    devStep smul G xC N k sys j = sys j := by
  unfold devStep
  dsimp only
  rw [h]
  rfl

/-- Round-1 step of a device that cannot finish yet. -/
theorem devStep_r1_mid (hact : ∀ a b p, smul a (smul b p) = smul (a * b) p)
    (j : Nat) (hj3 : j + 3 ≤ N) (sys : Nat → DevState X K P)
    (hself : sys j = devI smul G xC N k j)
    (hpub : (sys ((j + N - 1) % N)).published
      = stdFrom (pnt smul G N k (prIdx N j)) 0 (j + 1)) :
    devStep smul G xC N k sys j = devM smul G xC N k j := by
  unfold devStep
  dsimp only
  rw [hpub, hself]
  unfold devI
  dsimp only
  rw [mergeE_nil_std (pnt smul G N k (prIdx N j)) (j + 1)]
  rw [negotiate_fresh_eval smul G xC (metaOf N j)
    ([], stdFrom (pnt smul G N k (prIdx N j)) 0 (j + 1)) (k j)]
  rw [core_r1_mid smul G xC N k hact j hj3]
  dsimp only
  rw [mergeE_nil_std (pnt smul G N k j) (j + 2)]
  unfold devM
  rfl

/-- Round-1 step of one of the last two devices: it completes at once. -/
theorem devStep_r1_fin (hact : ∀ a b p, smul a (smul b p) = smul (a * b) p)
    (j : Nat) (hj : j < N) (hN : 2 ≤ N) (hj2 : N ≤ j + 2)
    (sys : Nat → DevState X K P)
    (hself : sys j = devI smul G xC N k j)
    (hpub : (sys ((j + N - 1) % N)).published
      = stdFrom (pnt smul G N k (prIdx N j)) 0 (N - 1)) :
    devStep smul G xC N k sys j = devD smul G xC N k j := by
  unfold devStep
  dsimp only
  rw [hpub, hself]
  unfold devI
  dsimp only
  rw [mergeE_nil_std (pnt smul G N k (prIdx N j)) (N - 1)]
  rw [negotiate_fresh_eval smul G xC (metaOf N j)
    ([], stdFrom (pnt smul G N k (prIdx N j)) 0 (N - 1)) (k j)]
  rw [core_r1_fin smul G xC N k hact j hj hN hj2]
  dsimp only
  rw [mergeE_nil_std (pnt smul G N k j) (N - 1)]
  unfold devD
  rfl

/-- Round-2 step of a mid-ring device: the refreshed partner map lets it
finish. -/
theorem devStep_r2 (hact : ∀ a b p, smul a (smul b p) = smul (a * b) p)
    (j : Nat) (hj3 : j + 3 ≤ N) (sys : Nat → DevState X K P)
    (hself : sys j = devM smul G xC N k j)
    (hpub : (sys ((j + N - 1) % N)).published
      = stdFrom (pnt smul G N k (prIdx N j)) 0 (N - 1)) :
    devStep smul G xC N k sys j = devD smul G xC N k j := by
  unfold devStep
  dsimp only
  rw [hpub, hself]
  unfold devM
  dsimp only
  rw [mergeE_std (pnt smul G N k (prIdx N j)) (N - 1) 0 (j + 1) (by omega)]
  rw [show max (j + 1) (0 + (N - 1)) = N - 1 from by omega]
  rw [negotiate_fresh_eval smul G xC (metaOf N j)
    (stdFrom (pnt smul G N k j) 0 (j + 2),
     stdFrom (pnt smul G N k (prIdx N j)) 0 (N - 1)) (k j)]
  rw [core_r2 smul G xC N k hact j hj3]
  dsimp only
  rw [mergeE_r2 (pnt smul G N k j) j (N - 3 - j)]
  rw [show max (j + 2) (j + 2 + (N - 3 - j)) = N - 1 from by omega]
  unfold devD
  rfl

end DriverStep

/-- The ring round stopped after the first `n` devices. -/
def roundPre {X K P : Type} (smul : K → P → P) (G : P) (xC : P → X) (N : Nat)
    (k : Nat → K) (sys : Nat → DevState X K P) (n : Nat) : Nat → DevState X K P :=
  (List.range n).foldl (fun s i => updAt s i (devStep smul G xC N k s i)) sys

theorem prIdx_zero (M : Nat) (hM : 0 < M) : prIdx M 0 = M - 1 := by
  rw [prIdx_eq M 0 hM hM, if_pos rfl]

theorem prIdx_pos (M n : Nat) (hn : 0 < n) (hnM : n < M) : prIdx M n = n - 1 := by
  rw [prIdx_eq M n (by omega) hnM, if_neg (by omega)]

section DriverRound

variable {X K P : Type} [CommMonoid K]
variable (smul : K → P → P) (G : P) (xC : P → X) (N : Nat) (k : Nat → K)

theorem roundPre_succ (sys : Nat → DevState X K P) (n : Nat) :
    roundPre smul G xC N k sys (n + 1)
      = updAt (roundPre smul G xC N k sys n) n
          (devStep smul G xC N k (roundPre smul G xC N k sys n) n) := by
  unfold roundPre
  rw [List.range_succ, List.foldl_append]
  rfl

theorem roundPre_ge (sys : Nat → DevState X K P) :
    ∀ n i, n ≤ i → roundPre smul G xC N k sys n i = sys i := by
  intro n
  induction n with
  | zero => intro i h; rfl
  | succ n ih =>
    intro i h
    rw [roundPre_succ smul G xC N k sys n]
    simp only [updAt]
    rw [if_neg (by omega)]
    exact ih i (by omega)

/-- Invariant of the first ring round: processed devices hold the round-1
state, later devices are still fresh. -/
theorem round1_inv (hact : ∀ a b p, smul a (smul b p) = smul (a * b) p)
    (hN : 2 ≤ N) :
    ∀ n, n ≤ N → ∀ i, i < n →
      roundPre smul G xC N k (fun t => initDev smul G xC N k t) n i
      = (if i + 3 ≤ N then devM smul G xC N k i else devD smul G xC N k i) := by
  intro n
  induction n with
  | zero => intro _ i hi; omega
  | succ n ih =>
    intro hn i hi
    rw [roundPre_succ smul G xC N k _ n]
    simp only [updAt]
    by_cases hin : i = n
    · subst hin
      rw [if_pos rfl]
      have hSn : roundPre smul G xC N k (fun t => initDev smul G xC N k t) i i
          = devI smul G xC N k i := by
        rw [roundPre_ge smul G xC N k _ i i (by omega)]
        exact initDev_eval smul G xC N k i (by omega)
      by_cases hmid : i + 3 ≤ N
      · rw [if_pos hmid]
        refine devStep_r1_mid smul G xC N k hact i hmid _ hSn ?_
        by_cases h0 : i = 0
        · subst h0
          rw [show (0 + N - 1) % N = N - 1 from by
            rw [show 0 + N - 1 = N - 1 from by omega, Nat.mod_eq_of_lt (by omega)]]
          rw [roundPre_ge smul G xC N k _ 0 (N - 1) (by omega)]
          rw [initDev_eval smul G xC N k (N - 1) (by omega)]
          rw [show prIdx N 0 = N - 1 from prIdx_zero N (by omega)]
          unfold devI
          rfl
        · rw [show (i + N - 1) % N = i - 1 from prIdx_pos N i (by omega) (by omega)]
          rw [ih (by omega) (i - 1) (by omega)]
          rw [if_pos (show (i - 1) + 3 ≤ N from by omega)]
          rw [show prIdx N i = i - 1 from prIdx_pos N i (by omega) (by omega)]
          unfold devM
          dsimp only
          rw [show (i - 1) + 2 = i + 1 from by omega]
      · rw [if_neg hmid]
        refine devStep_r1_fin smul G xC N k hact i (by omega) hN (by omega) _ hSn ?_
        by_cases h0 : i = 0
        · have hN2 : N = 2 := by omega
          subst h0
          subst hN2
          rw [show (0 + 2 - 1) % 2 = 1 from by norm_num]
          rw [roundPre_ge smul G xC 2 k _ 0 1 (by omega)]
          rw [initDev_eval smul G xC 2 k 1 (by omega)]
          unfold devI
          rfl
        · rw [show (i + N - 1) % N = i - 1 from prIdx_pos N i (by omega) (by omega)]
          rw [ih (by omega) (i - 1) (by omega)]
          rw [show prIdx N i = i - 1 from prIdx_pos N i (by omega) (by omega)]
          by_cases hm2 : (i - 1) + 3 ≤ N
          · rw [if_pos hm2]
            unfold devM
            dsimp only
            rw [show (i - 1) + 2 = N - 1 from by omega]
          · rw [if_neg hm2]
            unfold devD
            rfl
    · rw [if_neg hin]
      exact ih (by omega) i (by omega)

/-- Invariant of the second ring round: processed devices are done, the rest
still hold their round-1 state. -/
theorem round2_inv (hact : ∀ a b p, smul a (smul b p) = smul (a * b) p)
    (hN : 2 ≤ N) :
    ∀ n, n ≤ N → ∀ i, i < N →
      roundPre smul G xC N k
        (runRound smul G xC N k (fun t => initDev smul G xC N k t)) n i
      = (if i < n then devD smul G xC N k i
         else if i + 3 ≤ N then devM smul G xC N k i else devD smul G xC N k i) := by
  intro n
  induction n with
  | zero =>
    intro _ i hi
    rw [if_neg (by omega)]
    show roundPre smul G xC N k (fun t => initDev smul G xC N k t) N i = _
    exact round1_inv smul G xC N k hact hN N (by omega) i hi
  | succ n ih =>
    intro hn i hi
    rw [roundPre_succ smul G xC N k _ n]
    simp only [updAt]
    by_cases hin : i = n
    · subst hin
      rw [if_pos rfl, if_pos (by omega)]
      by_cases hmid : i + 3 ≤ N
      · have hself : roundPre smul G xC N k
            (runRound smul G xC N k (fun t => initDev smul G xC N k t)) i i
            = devM smul G xC N k i := by
          rw [ih (by omega) i (by omega), if_neg (by omega), if_pos hmid]
        refine devStep_r2 smul G xC N k hact i hmid _ hself ?_
        by_cases h0 : i = 0
        · subst h0
          rw [show (0 + N - 1) % N = N - 1 from by
            rw [show 0 + N - 1 = N - 1 from by omega, Nat.mod_eq_of_lt (by omega)]]
          rw [ih (by omega) (N - 1) (by omega), if_neg (by omega), if_neg (by omega)]
          rw [show prIdx N 0 = N - 1 from prIdx_zero N (by omega)]
          unfold devD
          rfl
        · rw [show (i + N - 1) % N = i - 1 from prIdx_pos N i (by omega) (by omega)]
          rw [ih (by omega) (i - 1) (by omega), if_pos (by omega)]
          rw [show prIdx N i = i - 1 from prIdx_pos N i (by omega) (by omega)]
          unfold devD
          rfl
      · have hself : roundPre smul G xC N k
            (runRound smul G xC N k (fun t => initDev smul G xC N k t)) i i
            = devD smul G xC N k i := by
          rw [ih (by omega) i (by omega), if_neg (by omega), if_neg hmid]
        rw [devStep_inactive smul G xC N k _ i (by rw [hself]; rfl)]
        exact hself
    · rw [if_neg hin]
      rw [ih (by omega) i hi]
      by_cases hlt : i < n
      · rw [if_pos hlt, if_pos (show i < n + 1 from by omega)]
      · rw [if_neg hlt, if_neg (show ¬ i < n + 1 from by omega)]

end DriverRound

/-- C3: for every ring of `N ≥ 2` devices, each repeatedly calling
`SeedImpl.negotiate` with its constant meta `{id, partnerID, devNum = N}` and
exchanging epk maps with its ring partner, the driver reaches completion on
every device (two rounds suffice), and each device ends holding exactly one
seed: the serialized X coordinate of `k 0 * k 1 * ⋯ * k (N-1) · G`, the same
value on all `N` devices. -/
theorem ring_negotiation_shared_seed {X K P : Type} [CommMonoid K]
    (smul : K → P → P) (G : P) (xC : P → X) (N : Nat) (k : Nat → K)
    (hact : ∀ a b p, smul a (smul b p) = smul (a * b) p)
    (hN : 2 ≤ N) (i : Nat) (hi : i < N) :
    (ringDriver smul G xC N k i).active = false
    ∧ (ringDriver smul G xC N k i).seed.e = none
    ∧ (ringDriver smul G xC N k i).seed.seeds
      = [xC (smul (∏ t ∈ Finset.range N, k t) G)] := by
  have h : ringDriver smul G xC N k i = devD smul G xC N k i := by
    show roundPre smul G xC N k
      (runRound smul G xC N k (fun t => initDev smul G xC N k t)) N i = _
    rw [round2_inv smul G xC N k hact hN N (by omega) i hi, if_pos hi]
  rw [h]
  unfold devD
  refine ⟨rfl, rfl, ?_⟩
  dsimp only
  unfold pnt
  rw [sVal_total N k i (by omega) hi]

/-- Witness: a ring of three devices over the abstract multiplicative model
`P = K = ℕ`, `G = 1`, scalars 2, 3, 4; every device finishes with the single
seed 24. -/
theorem ring_negotiation_shared_seed_witness :
    (ringDriver (fun a p => a * p) 1 (fun p => p) 3 (fun t => t + 2) 1).active = false
    ∧ (ringDriver (fun a p => a * p) 1 (fun p => p) 3 (fun t => t + 2) 1).seed.e = none
    ∧ (ringDriver (fun a p => a * p) 1 (fun p => p) 3 (fun t => t + 2) 1).seed.seeds
      = [(fun p => p) ((∏ t ∈ Finset.range 3, (t + 2)) * 1)] :=
  ring_negotiation_shared_seed (fun a p => a * p) 1 (fun p => p) 3 (fun t => t + 2)
    (fun a b p => (Nat.mul_assoc a b p).symm) (by omega) 1 (by omega)

end OVK
